import Mathlib

set_option maxRecDepth 8000

/-! Verification of the LaTeX-to-HTML converter `set-to-html.py` and of the
publishing helper `upload-to-canvas.py`.  Python strings are modelled as
`List Char`; each definition below is a direct translation of the
corresponding Python function (same scan order, same state, same
truncated/partial behaviours).  Python exceptions are modelled with
`Except`/`Option`; `while` loops whose termination is not structural are
modelled with explicit fuel, so that divergence is observable as fuel
exhaustion at every fuel value. -/

/-- Python `convert_dollar_math_to_paren_bracket` (set-to-html.py, lines
146-198): one left-to-right scan converting `$$` into display brackets and
a lone `$` into inline brackets, passing `\$` through literally and
suppressing lone-dollar toggling while display mode is open.
`inl` models `in_inline`, `ind` models `in_display`. -/
def convert_dollar_math_to_paren_bracket : Bool → Bool → List Char → List Char
  | _, _, [] => []
  | inl, ind, [c] =>
      if c = '$' then
        if ind then ['$'] else if inl then ['\\', ')'] else ['\\', '(']
      else [c]
  | inl, ind, c1 :: c2 :: rest =>
      if c1 = '\\' ∧ c2 = '$' then
        '\\' :: '$' :: convert_dollar_math_to_paren_bracket inl ind rest
      else if c1 = '$' ∧ c2 = '$' then
        (if ind then ['\\', ']'] else ['\\', '[']) ++
          convert_dollar_math_to_paren_bracket inl (!ind) rest
      else if c1 = '$' then
        if ind then '$' :: convert_dollar_math_to_paren_bracket inl ind (c2 :: rest)
        else (if inl then ['\\', ')'] else ['\\', '(']) ++
          convert_dollar_math_to_paren_bracket (!inl) ind (c2 :: rest)
      else c1 :: convert_dollar_math_to_paren_bracket inl ind (c2 :: rest)

/-- Number of escaped-dollar occurrences (`\$` pairs), counted with the same
one-pass pairing discipline the converter uses. -/
def countEscDollar : List Char → Nat
  | [] => 0
  | [_] => 0
  | c1 :: c2 :: rest =>
      if c1 = '\\' ∧ c2 = '$' then 1 + countEscDollar rest
      else countEscDollar (c2 :: rest)

/-- Number of non-escaped dollar characters: a `$` that is not consumed as
the second half of a `\$` pair. -/
def countBareDollar : List Char → Nat
  | [] => 0
  | [c] => if c = '$' then 1 else 0
  | c1 :: c2 :: rest =>
      if c1 = '\\' ∧ c2 = '$' then countBareDollar rest
      else (if c1 = '$' then 1 else 0) + countBareDollar (c2 :: rest)

/-- Number of lone (single, non-escaped) dollars that the converter scans
while display-math mode is open; these are exactly the dollars it passes
through unconverted. -/
def countDisplayLoneDollar : Bool → Bool → List Char → Nat
  | _, _, [] => 0
  | _, ind, [c] => if c = '$' ∧ ind then 1 else 0
  | inl, ind, c1 :: c2 :: rest =>
      if c1 = '\\' ∧ c2 = '$' then countDisplayLoneDollar inl ind rest
      else if c1 = '$' ∧ c2 = '$' then countDisplayLoneDollar inl (!ind) rest
      else if c1 = '$' then
        if ind then 1 + countDisplayLoneDollar inl ind (c2 :: rest)
        else countDisplayLoneDollar (!inl) ind (c2 :: rest)
      else countDisplayLoneDollar inl ind (c2 :: rest)

/-! Shared scanning primitives (Python `str.startswith`, `re.search` of a
literal pattern, and lazy first-occurrence splitting). -/

/-- `prefixAt pat l` : `pat` is a prefix of `l` (Python `str.startswith`). -/
def prefixAt : List Char → List Char → Bool
  | [], _ => true
  | _ :: _, [] => false
  | p :: ps, c :: cs => p = c && prefixAt ps cs

/-- Index of the first position of `l` at which `pat` begins (Python
`re.search` for a literal pattern, `str.find`). -/
def findIn (pat : List Char) : List Char → Option Nat
  | [] => if prefixAt pat [] then some 0 else none
  | c :: rest =>
      if prefixAt pat (c :: rest) then some 0
      else (findIn pat rest).map (· + 1)

/-- Split `l` at the first occurrence of `pat`: the part strictly before the
occurrence and the part strictly after it (the lazy `(.*?)pat` match). -/
def splitAtFirst (pat : List Char) : List Char → Option (List Char × List Char)
  | [] => if pat = [] then some ([], []) else none
  | c :: rest =>
      if prefixAt pat (c :: rest) then some ([], (c :: rest).drop pat.length)
      else
        match splitAtFirst pat rest with
        | some (b, r) => some (c :: b, r)
        | none => none

lemma prefixAt_drop (pat : List Char) : ∀ (l : List Char),
    prefixAt pat l = true → pat ++ l.drop pat.length = l := by
  induction pat with
  | nil => intro l _; simp
  | cons p ps ih =>
    intro l h
    cases l with
    | nil => simp [prefixAt] at h
    | cons c cs =>
      simp only [prefixAt, Bool.and_eq_true, decide_eq_true_eq] at h
      obtain ⟨h1, h2⟩ := h
      subst h1
      simpa using ih cs h2

lemma prefixAt_append_self (pat X : List Char) : prefixAt pat (pat ++ X) = true := by
  induction pat with
  | nil => simp [prefixAt]
  | cons p ps ih => simp [prefixAt, ih]

lemma splitAtFirst_append (pat : List Char) : ∀ (l b r : List Char),
    splitAtFirst pat l = some (b, r) → b ++ pat ++ r = l := by
  intro l
  induction l with
  | nil =>
    intro b r h
    simp only [splitAtFirst] at h
    split at h
    · rename_i hp
      subst hp
      simp at h
      obtain ⟨h1, h2⟩ := h
      subst h1; subst h2
      simp
    · exact absurd h (by simp)
  | cons c rest ih =>
    intro b r h
    simp only [splitAtFirst] at h
    split at h
    · rename_i hp
      obtain ⟨h1, h2⟩ := Prod.mk.injEq .. ▸ (Option.some.inj h)
      subst h1; subst h2
      simpa using prefixAt_drop pat (c :: rest) hp
    · rename_i hp
      cases hrec : splitAtFirst pat rest with
      | none => rw [hrec] at h; exact absurd h (by simp)
      | some p =>
        obtain ⟨b', r'⟩ := p
        rw [hrec] at h
        simp at h
        obtain ⟨h1, h2⟩ := h
        subst h1; subst h2
        have := ih b' r' hrec
        simp [← this]

lemma splitAtFirst_self_append (pat rest : List Char) (hp : pat ≠ []) :
    splitAtFirst pat (pat ++ rest) = some ([], rest) := by
  cases pat with
  | nil => exact absurd rfl hp
  | cons p ps =>
    have : (p :: ps) ++ rest = p :: (ps ++ rest) := by simp
    rw [this, splitAtFirst]
    rw [show p :: (ps ++ rest) = (p :: ps) ++ rest by simp,
      prefixAt_append_self]
    simp [List.drop_left]

/-! Math/text segmentation (`split_by_math_segments`, lines 421-472). -/

/-- Python inner scan of `split_by_math_segments` looking for the closing
delimiter (`\)` resp. `\]`): skips escaped character pairs; returns the math
body including the two closing characters plus the remainder, or `none` when
the closer is missing before end of input (unmatched opener). -/
def takeMathBody (close : Char) : List Char → Option (List Char × List Char)
  | [] => none
  | [_] => none
  | c1 :: c2 :: rest =>
      if c1 = '\\' then
        if c2 = close then some (['\\', c2], rest)
        else
          match takeMathBody close rest with
          | some (b, r) => some ('\\' :: c2 :: b, r)
          | none => none
      else
        match takeMathBody close (c2 :: rest) with
        | some (b, r) => some (c1 :: b, r)
        | none => none

lemma takeMathBody_append (close : Char) (l : List Char) : ∀ (b r : List Char),
    takeMathBody close l = some (b, r) → b ++ r = l := by
  induction l using takeMathBody.induct close with
  | case1 => intro b r h; simp [takeMathBody] at h
  | case2 c => intro b r h; simp [takeMathBody] at h
  | case3 rest =>
    intro b r h
    simp [takeMathBody] at h
    obtain ⟨h1, h2⟩ := h
    subst h1; subst h2
    simp
  | case4 c2 rest hc b' r' hrec ih =>
    intro b r h
    simp [takeMathBody, hc, hrec] at h
    obtain ⟨h1, h2⟩ := h
    subst h1; subst h2
    simpa using ih b' r' hrec
  | case5 c2 rest hc hrec ih =>
    intro b r h
    simp [takeMathBody, hc, hrec] at h
  | case6 c1 c2 rest hb b' r' hrec ih =>
    intro b r h
    simp [takeMathBody, hb, hrec] at h
    obtain ⟨h1, h2⟩ := h
    subst h1; subst h2
    simpa using ih b' r' hrec
  | case7 c1 c2 rest hb hrec ih =>
    intro b r h
    simp [takeMathBody, hb, hrec] at h

/-- Python text-chunk scan of `split_by_math_segments`: consume characters up
to (not including) the next `\(` or `\[`. -/
def takeText : List Char → List Char × List Char
  | [] => ([], [])
  | '\\' :: '(' :: rest => ([], '\\' :: '(' :: rest)
  | '\\' :: '[' :: rest => ([], '\\' :: '[' :: rest)
  | c :: rest =>
      ((c :: (takeText rest).1), (takeText rest).2)

lemma takeText_append (l : List Char) : (takeText l).1 ++ (takeText l).2 = l := by
  induction l using takeText.induct with
  | case1 => simp [takeText]
  | case2 rest => simp [takeText]
  | case3 rest => simp [takeText]
  | case4 c rest h1 h2 ih => simpa [takeText] using ih

/-- The scan of `split_by_math_segments` with a structural fuel bound (the
wrapper below supplies sufficient fuel: each step consumes at least one
character). -/
def splitMathSegsF : Nat → List Char → List (Bool × List Char)
  | 0, _ => []
  | _ + 1, [] => []
  | fuel + 1, '\\' :: '(' :: rest =>
      (match takeMathBody ')' rest with
      | some (b, r) => (true, '\\' :: '(' :: b) :: splitMathSegsF fuel r
      | none => [(false, '\\' :: '(' :: rest)])
  | fuel + 1, '\\' :: '[' :: rest =>
      (match takeMathBody ']' rest with
      | some (b, r) => (true, '\\' :: '[' :: b) :: splitMathSegsF fuel r
      | none => [(false, '\\' :: '[' :: rest)])
  | fuel + 1, c :: rest =>
      (false, c :: (takeText rest).1) :: splitMathSegsF fuel (takeText rest).2

/-- Python `split_by_math_segments` (set-to-html.py, lines 421-472): one
left-to-right scan producing `(is_math, text)` segments delimited by
`\( \)` / `\[ \]`; an unmatched opener turns the whole remainder into a
single text segment. -/
def split_by_math_segments (l : List Char) : List (Bool × List Char) :=
  splitMathSegsF l.length l

/-- Concatenation of the text of all segments in order. -/
def segsJoin (segs : List (Bool × List Char)) : List Char :=
  (segs.map Prod.snd).flatten

/-! Body isolation (`body_between_document`, lines 582-587). -/

def beginDocumentTag : List Char :=
  ['\\', 'b', 'e', 'g', 'i', 'n', '\x7b', 'd', 'o', 'c', 'u', 'm', 'e', 'n', 't', '\x7d']

def endDocumentTag : List Char :=
  ['\\', 'e', 'n', 'd', '\x7b', 'd', 'o', 'c', 'u', 'm', 'e', 'n', 't', '\x7d']

/-- Python `body_between_document` (set-to-html.py, lines 582-587): if either
marker is missing, or the first end marker starts at or before the end of the
first begin marker, return the input unchanged; otherwise return the text
strictly between the two markers. -/
def body_between_document (l : List Char) : List Char :=
  match findIn beginDocumentTag l, findIn endDocumentTag l with
  | some i1, some i2 =>
      if i2 ≤ i1 + beginDocumentTag.length then l
      else (l.drop (i1 + beginDocumentTag.length)).take
             (i2 - (i1 + beginDocumentTag.length))
  | some _, none => l
  | none, _ => l

/-- C10 specification-side function, written from the claim's words with an
independent first-occurrence search (scan all candidate offsets in order) and
the slice expressed as take-then-drop. -/
def specFirstMatch (pat l : List Char) : Option Nat :=
  (List.range (l.length + 1)).find? (fun i => prefixAt pat (l.drop i))

/-- C10 specification-side body isolation. -/
def bodySpecC10 (l : List Char) : List Char :=
  match specFirstMatch beginDocumentTag l, specFirstMatch endDocumentTag l with
  | some i, some j =>
      if j ≤ i + beginDocumentTag.length then l
      else (l.take j).drop (i + beginDocumentTag.length)
  | some _, none => l
  | none, _ => l

/-! Display-math environment wrapping
(`wrap_math_environments_in_brackets`, lines 201-221). -/

/-- Set of recognized math-block environment names (`MATH_BLOCK_ENVS`). -/
def MATH_BLOCK_ENVS : List (List Char) :=
  ["equation".toList, "equation*".toList, "align".toList, "align*".toList,
   "gather".toList, "gather*".toList, "multline".toList, "multline*".toList,
   "flalign".toList, "flalign*".toList, "alignat".toList, "alignat*".toList]

/-- Character class `[a-zA-Z*]` of the environment-name capture group. -/
def isEnvNameChar (c : Char) : Bool := c.isAlpha || c = '*'

def beginTagPrefix : List Char := ['\\', 'b', 'e', 'g', 'i', 'n', '\x7b']

def beginTagOf (env : List Char) : List Char := beginTagPrefix ++ env ++ ['\x7d']

def endTagOf (env : List Char) : List Char :=
  ['\\', 'e', 'n', 'd', '\x7b'] ++ env ++ ['\x7d']

/-- One attempt of the regex `\begin{([a-zA-Z*]+)}(.*?)\end{\1}` (DOTALL) at
the head of `l`: the environment name is the maximal run of name characters
followed by `}`, and the lazy body ends at the first later `\end{name}`.
Returns `(name, body, rest-after-the-match)`. -/
def tryBeginMatch (l : List Char) : Option (List Char × List Char × List Char) :=
  if prefixAt beginTagPrefix l then
    let after := l.drop 7
    let env := after.takeWhile isEnvNameChar
    let rest1 := after.dropWhile isEnvNameChar
    if env ≠ [] ∧ rest1.head? = some '\x7d' then
      match splitAtFirst (endTagOf env) rest1.tail with
      | some (body, r) => some (env, body, r)
      | none => none
    else none
  else none

lemma tryBeginMatch_append (l env body r : List Char)
    (h : tryBeginMatch l = some (env, body, r)) :
    beginTagOf env ++ body ++ endTagOf env ++ r = l := by
  unfold tryBeginMatch at h
  split at h
  · rename_i hpre
    simp only at h
    split at h
    · rename_i hcond
      obtain ⟨hne, hhead⟩ := hcond
      cases hsplit : splitAtFirst (endTagOf ((l.drop 7).takeWhile isEnvNameChar))
          (((l.drop 7).dropWhile isEnvNameChar).tail) with
      | none => rw [hsplit] at h; exact absurd h (by simp)
      | some p =>
        obtain ⟨body', r'⟩ := p
        rw [hsplit] at h
        simp only [Option.some.injEq, Prod.mk.injEq] at h
        obtain ⟨henv, hbody, hr⟩ := h
        have hsp := splitAtFirst_append _ _ _ _ hsplit
        have hdw : ((l.drop 7).dropWhile isEnvNameChar) =
            '\x7d' :: ((l.drop 7).dropWhile isEnvNameChar).tail := by
          cases hx : (l.drop 7).dropWhile isEnvNameChar with
          | nil => rw [hx] at hhead; simp at hhead
          | cons a as =>
            rw [hx] at hhead
            simp at hhead
            subst hhead
            simp
        have htw := List.takeWhile_append_dropWhile isEnvNameChar (l.drop 7)
        have hbp : beginTagPrefix ++ l.drop 7 = l := by
          simpa using prefixAt_drop beginTagPrefix l hpre
        rw [← henv, ← hbody, ← hr]
        calc beginTagOf ((l.drop 7).takeWhile isEnvNameChar) ++ body' ++
              endTagOf ((l.drop 7).takeWhile isEnvNameChar) ++ r'
            = beginTagPrefix ++ ((l.drop 7).takeWhile isEnvNameChar ++
                ('\x7d' :: (body' ++ (endTagOf ((l.drop 7).takeWhile isEnvNameChar) ++ r')))) := by
              simp [beginTagOf]
          _ = beginTagPrefix ++ ((l.drop 7).takeWhile isEnvNameChar ++
                ('\x7d' :: ((l.drop 7).dropWhile isEnvNameChar).tail)) := by
              rw [show body' ++ (endTagOf ((l.drop 7).takeWhile isEnvNameChar) ++ r')
                    = ((l.drop 7).dropWhile isEnvNameChar).tail by simpa using hsp]
          _ = beginTagPrefix ++ ((l.drop 7).takeWhile isEnvNameChar ++
                (l.drop 7).dropWhile isEnvNameChar) := by rw [← hdw]
          _ = beginTagPrefix ++ l.drop 7 := by rw [htw]
          _ = l := hbp
    · exact absurd h (by simp)
  · exact absurd h (by simp)

lemma tryBeginMatch_length (l env body r : List Char)
    (h : tryBeginMatch l = some (env, body, r)) : r.length < l.length := by
  have := congrArg List.length (tryBeginMatch_append l env body r h)
  simp [beginTagOf, beginTagPrefix] at this
  omega

/-- The substitution scan of one `pattern.sub(repl, cur)` pass with a
structural fuel bound (the wrapper below supplies sufficient fuel). -/
def wrapMathPassF : Nat → List Char → List Char
  | 0, l => l
  | _ + 1, [] => []
  | fuel + 1, c :: rest =>
      (match tryBeginMatch (c :: rest) with
      | some (env, body, after) =>
          (if env ∈ MATH_BLOCK_ENVS then
             '\\' :: '[' :: (beginTagOf env ++ body ++ endTagOf env ++ ['\\', ']'])
           else beginTagOf env ++ body ++ endTagOf env) ++ wrapMathPassF fuel after
      | none => c :: wrapMathPassF fuel rest)

/-- One `pattern.sub(repl, cur)` pass of
`wrap_math_environments_in_brackets`: scan left to right; at each position
where the environment regex matches, a recognized math-block environment is
replaced by itself enclosed in `\[ \]` (any other matched environment is
left as matched) and scanning resumes after the match. -/
def wrapMathPass (l : List Char) : List Char := wrapMathPassF l.length l

/-- Python `wrap_math_environments_in_brackets` (set-to-html.py, lines
201-221): repeat the substitution pass until a pass leaves the string
unchanged (`while prev != cur`).  The loop has no other exit, so fuel
exhaustion at every fuel value means the Python loop never terminates. -/
def wrap_math_environments_in_brackets (fuel : Nat) (l : List Char) :
    Option (List Char) :=
  match fuel with
  | 0 => none
  | fuel + 1 =>
      if wrapMathPass l = l then some l
      else wrap_math_environments_in_brackets fuel (wrapMathPass l)
/-! Environment matching and document structuring
(`find_matching_env`, lines 296-322; `parse_sections_and_problems`,
lines 590-646). -/

/-- Python whitespace set used by `str.strip`. -/
def isPyWhitespace (c : Char) : Bool :=
  c = ' ' || c = '\t' || c = '\n' || c = '\r' || c = '\x0b' || c = '\x0c'

/-- Python `str.strip()`. -/
def pyStrip (l : List Char) : List Char :=
  ((l.dropWhile isPyWhitespace).reverse.dropWhile isPyWhitespace).reverse

/-- `re.search(pat, l, i)` for a literal pattern: index of the first
occurrence at or after `i`. -/
def findFrom (pat l : List Char) (i : Nat) : Option Nat :=
  (findIn pat (l.drop i)).map (· + i)

/-- Python `find_matching_env` inner `while i < len(tex)` loop: depth-aware
search for the matching `\end{env}`.  A missing end raises `ValueError`
(modelled as `.error`); the fuel bound only decreases on iterations that
strictly advance `i`, so any fuel above `l.length` is never exhausted. -/
def find_matching_env_loop (beginPat endPat : List Char) (envname : String)
    (l : List Char) : Nat → Nat → Nat → Except String Nat
  | 0, _, _ => .error "fuel exhausted"
  | fuel + 1, depth, i =>
      if i < l.length then
        match findFrom endPat l i with
        | none => .error ("end not found for env " ++ envname)
        | some me =>
            match findFrom beginPat l i with
            | some mb =>
                if mb < me then
                  find_matching_env_loop beginPat endPat envname l fuel
                    (depth + 1) (mb + beginPat.length)
                else
                  if depth - 1 = 0 then .ok me
                  else
                    find_matching_env_loop beginPat endPat envname l fuel
                      (depth - 1) (me + endPat.length)
            | none =>
                if depth - 1 = 0 then .ok me
                else
                  find_matching_env_loop beginPat endPat envname l fuel
                    (depth - 1) (me + endPat.length)
      else .error ("end not found for env " ++ envname)

/-- Python `find_matching_env` (set-to-html.py, lines 296-322): position of
the start of the nesting-aware matching `\end{envname}`, raising
`ValueError` when the begin or the end cannot be found. -/
def find_matching_env (l : List Char) (begin_pos : Nat) (envname : List Char) :
    Except String Nat :=
  match findFrom (beginTagOf envname) l begin_pos with
  | none => .error ("begin not found for env " ++ String.mk envname)
  | some m0 =>
      find_matching_env_loop (beginTagOf envname) (endTagOf envname)
        (String.mk envname) l (l.length + 1) 1 (m0 + (beginTagOf envname).length)

def sectionMarker : List Char := ['\\', 's', 'e', 'c', 't', 'i', 'o', 'n', '\x7b']

def beginProblemTag : List Char := beginTagOf ("problem".toList)

def beginProblemStarTag : List Char := beginTagOf ("problem*".toList)

/-- The structurer's `marker_re`: `\section{` or `\begin{problem}` or
`\begin{problem*}` matches at this position. -/
def markerMatchAt (l : List Char) : Bool :=
  prefixAt sectionMarker l || prefixAt beginProblemTag l ||
    prefixAt beginProblemStarTag l

/-- First index where `marker_re` matches. -/
def findMarker : List Char → Option Nat
  | [] => none
  | c :: rest =>
      if markerMatchAt (c :: rest) then some 0 else (findMarker rest).map (· + 1)

/-- First index at or after `i` where `marker_re` matches. -/
def findMarkerFrom (l : List Char) (i : Nat) : Option Nat :=
  (findMarker (l.drop i)).map (· + i)

/-- Balanced-brace scan shared by the section-title parser,
`extract_braced_arg` and `replace_command_arg_balanced`: starting at depth
`d`, consume characters (skipping `\x` pairs) until depth returns to zero;
the closing brace is included in the consumed part.  Returns
`(consumed, rest)`. -/
def takeBal : Nat → List Char → List Char × List Char
  | _, [] => ([], [])
  | _, [c] => ([c], [])
  | d, c1 :: c2 :: rest =>
      if c1 = '\\' then
        (('\\' :: c2 :: (takeBal d rest).1), (takeBal d rest).2)
      else
        let d' := if c1 = '\x7b' then d + 1 else if c1 = '\x7d' then d - 1 else d
        if d' = 0 then ([c1], c2 :: rest)
        else ((c1 :: (takeBal d' (c2 :: rest)).1), (takeBal d' (c2 :: rest)).2)

/-- One iteration state of Python `parse_sections_and_problems`:
accumulates blocks (reversed) while scanning from index `i`. -/
def parse_sections_loop (body : List Char) :
    Nat → Nat → List (String × List Char) → Except String (List (String × List Char))
  | 0, _, _ => .error "fuel exhausted"
  | fuel + 1, i, acc =>
      match findMarkerFrom body i with
      | none => .ok acc.reverse
      | some m =>
          if prefixAt sectionMarker (body.drop m) then
            let consumed := (takeBal 1 (body.drop (m + 9))).1
            parse_sections_loop body fuel (m + 9 + consumed.length)
              (("section", pyStrip consumed.dropLast) :: acc)
          else
            let env : List Char :=
              if prefixAt beginProblemStarTag (body.drop m) then "problem*".toList
              else "problem".toList
            match find_matching_env body m env with
            | .error e => .error e
            | .ok end_pos =>
                match findFrom (endTagOf env) body end_pos with
                | none => .ok acc.reverse
                | some et =>
                    let content := pyStrip
                      ((body.drop (m + (beginTagOf env).length)).take
                        (end_pos - (m + (beginTagOf env).length)))
                    parse_sections_loop body fuel (et + (endTagOf env).length)
                      ((String.mk env, content) :: acc)

/-- Python `parse_sections_and_problems` (set-to-html.py, lines 590-646):
ordered list of `("section", title)` and `("problem"/"problem*", content)`
blocks; an uncaught `ValueError` from `find_matching_env` propagates. -/
def parse_sections_and_problems (body : List Char) :
    Except String (List (String × List Char)) :=
  parse_sections_loop body (body.length + 1) 0 []

/-! Problem numbering and identifiers (`render_html`, lines 748-766;
`first_digits_from_filename`, lines 130-139; `pad2`). -/

/-- Python `str.replace(pat, rep)` (left-to-right, non-overlapping), with a
structural fuel bound; the wrapper below supplies sufficient fuel. -/
def replaceAllF (pat rep : List Char) : Nat → List Char → List Char
  | 0, l => l
  | _ + 1, [] => []
  | fuel + 1, c :: rest =>
      if prefixAt pat (c :: rest) ∧ pat ≠ [] then
        rep ++ replaceAllF pat rep fuel ((c :: rest).drop pat.length)
      else c :: replaceAllF pat rep fuel rest

/-- Python `str.replace(pat, rep)` for a non-empty pattern. -/
def replaceAll (pat rep l : List Char) : List Char :=
  replaceAllF pat rep l.length l

def html_escape_content (l : List Char) : List Char :=
  replaceAll ['>'] ['&', 'g', 't', ';']
    (replaceAll ['<'] ['&', 'l', 't', ';']
      (replaceAll ['&'] ['&', 'a', 'm', 'p', ';'] l))

/-- Python `pad2` : `f"{n:02d}"` for a non-negative argument. -/
def pad2 (n : Nat) : List Char :=
  if n < 10 then '0' :: (Nat.repr n).toList else (Nat.repr n).toList

/-- Python `os.path.basename` for POSIX paths: everything after the last
slash. -/
def basenamePosix (l : List Char) : List Char :=
  (l.reverse.takeWhile (fun c => !(c == '/'))).reverse

/-- Index of the last occurrence of `ch` (Python `str.rfind`). -/
def rfindIdx (ch : Char) (l : List Char) : Option Nat :=
  match findIn [ch] l.reverse with
  | some k => some (l.length - 1 - k)
  | none => none

/-- Root part of CPython `posixpath.splitext`: drop the extension, which
starts at the last dot that comes after the last slash and after at least
one non-dot character of the base name. -/
def splitextRoot (p : List Char) : List Char :=
  match rfindIdx '.' p with
  | none => p
  | some dotIndex =>
      let sepIndex : Nat := match rfindIdx '/' p with | some s => s + 1 | none => 0
      if sepIndex ≤ dotIndex ∧
          ((p.drop sepIndex).take (dotIndex - sepIndex)).any (fun c => !(c == '.'))
      then p.take dotIndex else p

/-- `DIGITS_RE.search`: the first maximal run of decimal digits. -/
def firstDigitsRun : List Char → Option (List Char)
  | [] => none
  | c :: rest =>
      if c.isDigit then some ((c :: rest).takeWhile Char.isDigit)
      else firstDigitsRun rest

/-- Python `int` of a digit run. -/
def decimalValue (l : List Char) : Nat :=
  l.foldl (fun acc c => acc * 10 + (c.toNat - '0'.toNat)) 0

/-- Python `first_digits_from_filename` (set-to-html.py, lines 130-139):
first run of digits in the extension-stripped base name, default 1. -/
def first_digits_from_filename (path : List Char) : Nat :=
  match firstDigitsRun (splitextRoot (basenamePosix path)) with
  | none => 1
  | some ds => decimalValue ds

/-- The card title `html_escape_content(pid) + html_escape_content(star)`
emitted by `render_html` for one problem block. -/
def mkCardTitle (set_id : List Char) (idx : Nat) (kind : String) : List Char :=
  html_escape_content (('S' :: set_id) ++ ('P' :: pad2 idx)) ++
    html_escape_content ((if kind = "problem*" then " ★" else "").toList)

/-- The problem-card titles produced by the block loop of `render_html`
(set-to-html.py, lines 748-766): sections emit no card and do not advance
the counter; `problem` and `problem*` blocks advance it and get a card. -/
def problemCardTitles (set_id : List Char) (counter : Nat) :
    List (String × List Char) → List (List Char)
  | [] => []
  | (kind, _) :: rest =>
      if kind = "section" then problemCardTitles set_id counter rest
      else if kind = "problem" ∨ kind = "problem*" then
        mkCardTitle set_id (counter + 1) kind ::
          problemCardTitles set_id (counter + 1) rest
      else problemCardTitles set_id counter rest

/-- A block that consumes a numbering slot. -/
def isProblemBlock (b : String × List Char) : Bool :=
  b.1 == "problem" || b.1 == "problem*"


/-! Macro extraction (`extract_newcommand_blocks`, lines 228-289). -/

/-- Regex word character (`\w`, ASCII). -/
def isWordChar (c : Char) : Bool := c.isAlpha || c.isDigit || c = '_'

/-- `kw` matches at the head of `l` followed by a word boundary (`\b`). -/
def kwWithBoundary (kw l : List Char) : Bool :=
  prefixAt kw l &&
    (match (l.drop kw.length).head? with
     | some c => !(isWordChar c)
     | none => true)

/-- `NEWCOMMAND_START_RE` matches at the head of `l`:
`\newcommand\b`, `\renewcommand\b`, `\DeclareMathOperator\b` or `\def\b`. -/
def newcommandKeywordAt (l : List Char) : Bool :=
  kwWithBoundary ("\\newcommand".toList) l ||
  kwWithBoundary ("\\renewcommand".toList) l ||
  kwWithBoundary ("\\DeclareMathOperator".toList) l ||
  kwWithBoundary ("\\def".toList) l

/-- `NEWCOMMAND_START_RE.search`: split the input at the first position
where a defining keyword matches. -/
def findNewcommandStart : List Char → Option (List Char × List Char)
  | [] => none
  | c :: rest =>
      if newcommandKeywordAt (c :: rest) then some ([], c :: rest)
      else
        match findNewcommandStart rest with
        | some (pre, suf) => some (c :: pre, suf)
        | none => none

/-- The inner `while j < n` scan of `extract_newcommand_blocks`
(set-to-html.py, lines 256-282), translated clause by clause: skip escaped
pairs; update brace depth (clamped at zero) and the `saw_open` flag; stop
right after the character that returns the depth to zero once a brace has
been opened, or right after a newline when no brace has been opened yet.
Returns `(consumed, rest)`. -/
def newcommandScan : Nat → Bool → List Char → List Char × List Char
  | _, _, [] => ([], [])
  | _, _, [c] => ([c], [])
  | d, so, c1 :: c2 :: rest =>
      if c1 = '\\' then
        (('\\' :: c2 :: (newcommandScan d so rest).1), (newcommandScan d so rest).2)
      else
        if (so || c1 = '\x7b') = true ∧
            (if c1 = '\x7b' then d + 1 else if c1 = '\x7d' then d - 1 else d) = 0 then
          ([c1], c2 :: rest)
        else if ¬(so || c1 = '\x7b') = true ∧ c1 = '\n' then ([c1], c2 :: rest)
        else
          ((c1 :: (newcommandScan
              (if c1 = '\x7b' then d + 1 else if c1 = '\x7d' then d - 1 else d)
              (so || c1 = '\x7b') (c2 :: rest)).1),
            (newcommandScan
              (if c1 = '\x7b' then d + 1 else if c1 = '\x7d' then d - 1 else d)
              (so || c1 = '\x7b') (c2 :: rest)).2)

/-- C6 specification-side scan, written from the claim's words: skip escaped
character pairs without depth changes; stop the first time brace depth
returns to zero after at least one brace has been opened (that is, at a
closing brace reached at depth at most one with a brace already opened), or
— when no brace has been opened — at the next line break. -/
def newcommandScanSpec : Nat → Bool → List Char → List Char × List Char
  | _, _, [] => ([], [])
  | _, _, [c] => ([c], [])
  | d, so, c1 :: c2 :: rest =>
      if c1 = '\\' then
        (('\\' :: c2 :: (newcommandScanSpec d so rest).1),
          (newcommandScanSpec d so rest).2)
      else if c1 = '\x7b' then
        (('\x7b' :: (newcommandScanSpec (d + 1) true (c2 :: rest)).1),
          (newcommandScanSpec (d + 1) true (c2 :: rest)).2)
      else if c1 = '\x7d' then
        if so = true ∧ d ≤ 1 then (['\x7d'], c2 :: rest)
        else (('\x7d' :: (newcommandScanSpec (d - 1) so (c2 :: rest)).1),
          (newcommandScanSpec (d - 1) so (c2 :: rest)).2)
      else if c1 = '\n' then
        if so then
          (('\n' :: (newcommandScanSpec d so (c2 :: rest)).1),
            (newcommandScanSpec d so (c2 :: rest)).2)
        else (['\n'], c2 :: rest)
      else ((c1 :: (newcommandScanSpec d so (c2 :: rest)).1),
        (newcommandScanSpec d so (c2 :: rest)).2)

lemma findNewcommandStart_append : ∀ (l pre suf : List Char),
    findNewcommandStart l = some (pre, suf) → pre ++ suf = l := by
  intro l
  induction l with
  | nil => intro pre suf h; simp [findNewcommandStart] at h
  | cons c rest ih =>
    intro pre suf h
    rw [findNewcommandStart] at h
    split at h
    · simp at h
      obtain ⟨h1, h2⟩ := h
      subst h1; subst h2
      simp
    · cases hrec : findNewcommandStart rest with
      | none => rw [hrec] at h; exact absurd h (by simp)
      | some p =>
        obtain ⟨pre', suf'⟩ := p
        rw [hrec] at h
        simp at h
        obtain ⟨h1, h2⟩ := h
        subst h1; subst h2
        simpa using ih pre' suf' hrec

lemma newcommandScan_append (d : Nat) (so : Bool) (l : List Char) :
    (newcommandScan d so l).1 ++ (newcommandScan d so l).2 = l := by
  induction d, so, l using newcommandScan.induct with
  | case1 d so => simp [newcommandScan]
  | case2 d so c => simp [newcommandScan]
  | case3 d so c2 rest ih =>
    simp only [newcommandScan, if_pos rfl]
    simpa using ih
  | case4 d so c1 c2 rest hb hstop =>
    simp only [newcommandScan, if_neg hb]
    rw [if_pos hstop]
    simp
  | case5 d so c1 c2 rest hb hstop hnl =>
    simp only [newcommandScan, if_neg hb]
    rw [if_neg hstop, if_pos hnl]
    simp
  | case6 d so c1 c2 rest hb hstop hnl ih =>
    simp only [newcommandScan, if_neg hb]
    rw [if_neg hstop, if_neg hnl]
    simpa using ih

lemma newcommandScan_fst_ne_nil (d : Nat) (so : Bool) (l : List Char)
    (hl : l ≠ []) : (newcommandScan d so l).1 ≠ [] := by
  match l with
  | [] => exact absurd rfl hl
  | [c] => simp [newcommandScan]
  | c1 :: c2 :: rest =>
    simp only [newcommandScan]
    repeat' split
    all_goals simp

lemma newcommandScanSpec_append (d : Nat) (so : Bool) (l : List Char) :
    (newcommandScanSpec d so l).1 ++ (newcommandScanSpec d so l).2 = l := by
  induction d, so, l using newcommandScanSpec.induct with
  | case1 d so => simp [newcommandScanSpec]
  | case2 d so c => simp [newcommandScanSpec]
  | case3 d so c2 rest ih =>
    simp only [newcommandScanSpec, if_pos rfl]
    simpa using ih
  | case4 d so c2 rest hb ih =>
    simp +decide only [newcommandScanSpec]
    simpa using ih
  | case5 d so c2 rest hstop hb hob =>
    simp +decide only [newcommandScanSpec]
    simp [hstop]
  | case6 d so c2 rest hstop hb hob ih =>
    simp +decide only [newcommandScanSpec]
    rw [if_neg hstop]
    simpa using ih
  | case7 d c2 rest hb hob hcb ih =>
    simp +decide only [newcommandScanSpec]
    simpa using ih
  | case8 d so c2 rest hso hb hob hcb =>
    rw [Bool.not_eq_true] at hso
    subst hso
    simp +decide only [newcommandScanSpec]
    simp
  | case9 d so c1 c2 rest h1 h2 h3 h4 ih =>
    simp only [newcommandScanSpec, if_neg h1, if_neg h2, if_neg h3, if_neg h4]
    simpa using ih

lemma newcommandScanSpec_fst_ne_nil (d : Nat) (so : Bool) (l : List Char)
    (hl : l ≠ []) : (newcommandScanSpec d so l).1 ≠ [] := by
  match l with
  | [] => exact absurd rfl hl
  | [c] => simp [newcommandScanSpec]
  | c1 :: c2 :: rest =>
    simp only [newcommandScanSpec]
    repeat' split
    all_goals simp

lemma findNewcommandStart_suf_ne_nil : ∀ (l pre suf : List Char),
    findNewcommandStart l = some (pre, suf) → suf ≠ [] := by
  intro l
  induction l with
  | nil => intro pre suf h; simp [findNewcommandStart] at h
  | cons c rest ih =>
    intro pre suf h
    rw [findNewcommandStart] at h
    split at h
    · simp at h
      rw [← h.2]
      simp
    · cases hrec : findNewcommandStart rest with
      | none => rw [hrec] at h; exact absurd h (by simp)
      | some p =>
        obtain ⟨pre', suf'⟩ := p
        rw [hrec] at h
        simp at h
        rw [← h.2]
        exact ih pre' suf' hrec

/-- Python `extract_newcommand_blocks` (set-to-html.py, lines 228-289):
repeatedly find the next defining keyword, consume its construct with the
balanced scan, strip and collect it, and keep the text outside the removed
constructs. -/
def extract_newcommand_blocks (l : List Char) : List (List Char) × List Char :=
  match hfind : findNewcommandStart l with
  | none => ([], l)
  | some (pre, suf) =>
      let span := (newcommandScan 0 false suf).1
      let rest := (newcommandScan 0 false suf).2
      ((if pyStrip span = [] then (extract_newcommand_blocks rest).1
        else pyStrip span :: (extract_newcommand_blocks rest).1),
       pre ++ (extract_newcommand_blocks rest).2)
termination_by l.length
decreasing_by
  all_goals
    (have hps := congrArg List.length (findNewcommandStart_append l pre suf hfind)
     have hsa := congrArg List.length (newcommandScan_append 0 false suf)
     have hne : (newcommandScan 0 false suf).1 ≠ [] :=
       newcommandScan_fst_ne_nil 0 false suf
         (findNewcommandStart_suf_ne_nil l pre suf hfind)
     have h1 : 1 ≤ (newcommandScan 0 false suf).1.length := by
       cases hx : (newcommandScan 0 false suf).1 with
       | nil => exact absurd hx hne
       | cons a as => simp
     simp only [List.length_append] at hps hsa
     omega)

/-- C6 specification-side extractor: identical contract, driven by the
claim's scan `newcommandScanSpec`. -/
def extractSpecC6 (l : List Char) : List (List Char) × List Char :=
  match hfind : findNewcommandStart l with
  | none => ([], l)
  | some (pre, suf) =>
      let span := (newcommandScanSpec 0 false suf).1
      let rest := (newcommandScanSpec 0 false suf).2
      ((if pyStrip span = [] then (extractSpecC6 rest).1
        else pyStrip span :: (extractSpecC6 rest).1),
       pre ++ (extractSpecC6 rest).2)
termination_by l.length
decreasing_by
  all_goals
    (have hps := congrArg List.length (findNewcommandStart_append l pre suf hfind)
     have hsa := congrArg List.length (newcommandScanSpec_append 0 false suf)
     have hne : (newcommandScanSpec 0 false suf).1 ≠ [] :=
       newcommandScanSpec_fst_ne_nil 0 false suf
         (findNewcommandStart_suf_ne_nil l pre suf hfind)
     have h1 : 1 ≤ (newcommandScanSpec 0 false suf).1.length := by
       cases hx : (newcommandScanSpec 0 false suf).1 with
       | nil => exact absurd hx hne
       | cons a as => simp
     simp only [List.length_append] at hps hsa
     omega)


/-! Canvas URL parsing (`parse_assignment_url`, upload-to-canvas.py,
lines 25-43).  `urllib.parse.urlparse` is stdlib; it is modelled below for
the three fields the program reads (scheme, netloc, path). -/

/-- The two `ValueError` sites of `parse_assignment_url` plus the
`ValueError("Invalid IPv6 URL")` that `urlparse` itself can raise. -/
inductive CanvasUrlError where
  | invalidIpv6
  | notValidUrl
  | badPath
deriving DecidableEq

structure UrlParts where
  scheme : List Char
  netloc : List Char
  path : List Char
deriving DecidableEq

/-- Modelled stdlib: CPython removes tab, carriage-return and line-feed
characters from the URL before splitting. -/
def removeUnsafeUrlChars (l : List Char) : List Char :=
  l.filter (fun c => !(c == '\t' || c == '\r' || c == '\n'))

/-- Characters allowed in a scheme after the initial letter. -/
def schemeChars (c : Char) : Bool :=
  c.isAlpha || c.isDigit || c = '+' || c = '-' || c = '.'

/-- Modelled stdlib: split `scheme:` off the front when the prefix before
the first colon is a non-empty ASCII-letter-headed run of scheme
characters; the scheme is lower-cased. -/
def splitScheme (l : List Char) : List Char × List Char :=
  match findIn [':'] l with
  | none => ([], l)
  | some i =>
      if 0 < i ∧
          ((match l.head? with | some c => c.isAlpha | none => false) = true) ∧
          ((l.take i).drop 1).all schemeChars then
        ((l.take i).map Char.toLower, l.drop (i + 1))
      else ([], l)

/-- Modelled stdlib `_splitnetloc`: the netloc runs up to the first of
`/`, `?`, `#`. -/
def splitNetloc (l : List Char) : List Char × List Char :=
  (l.takeWhile (fun c => !(c == '/' || c == '?' || c == '#')),
   l.dropWhile (fun c => !(c == '/' || c == '?' || c == '#')))

/-- Modelled stdlib: a `[` without `]` (or vice versa) in the netloc makes
`urlparse` raise `ValueError("Invalid IPv6 URL")`. -/
def bracketsBad (netloc : List Char) : Bool :=
  (netloc.contains '[' && !(netloc.contains ']')) ||
  (netloc.contains ']' && !(netloc.contains '['))

/-- Cut the string at the first occurrence of `ch` (used to drop the
fragment at `#` and then the query at `?`). -/
def cutAtFirst (ch : Char) (l : List Char) : List Char :=
  match findIn [ch] l with
  | none => l
  | some i => l.take i

/-- Modelled stdlib `_splitparams` as used by `urlparse`: when a `;` is
present, parameters after the `;` in the last path segment are split off
the path. -/
def splitParams (l : List Char) : List Char :=
  if l.contains ';' then
    if l.contains '/' then
      let s : Nat := match rfindIdx '/' l with | some s0 => s0 | none => 0
      match findIn [';'] (l.drop s) with
      | none => l
      | some k => l.take (s + k)
    else
      match findIn [';'] l with
      | none => l
      | some i => l.take i
  else l

/-- Modelled stdlib `urllib.parse.urlparse`, restricted to the fields the
program reads (newer interpreters also validate the content of a bracketed
host; that check is not modelled). -/
def urlparseM (url : List Char) : Except CanvasUrlError UrlParts :=
  let u0 := removeUnsafeUrlChars url
  let rest := (splitScheme u0).2
  let scheme := (splitScheme u0).1
  let netloc := if prefixAt ['/', '/'] rest then (splitNetloc (rest.drop 2)).1 else []
  let rest2 := if prefixAt ['/', '/'] rest then (splitNetloc (rest.drop 2)).2 else rest
  if bracketsBad netloc then .error .invalidIpv6
  else
    .ok ⟨scheme, netloc, splitParams (cutAtFirst '?' (cutAtFirst '#' rest2))⟩

/-- Python `str.split(sep)` for a single-character separator. -/
def splitOnChar (ch : Char) : List Char → List (List Char)
  | [] => [[]]
  | c :: rest =>
      if c = ch then [] :: splitOnChar ch rest
      else
        match splitOnChar ch rest with
        | f :: fs => (c :: f) :: fs
        | [] => [[c]]

/-- Python `list.index`: index of the first occurrence. -/
def firstIdx {α : Type} [DecidableEq α] (a : α) : List α → Option Nat
  | [] => none
  | b :: rest => if b = a then some 0 else (firstIdx a rest).map (· + 1)

/-- The path-segment list `parse_assignment_url` computes:
`[x for x in p.path.split("/") if x]`. -/
def urlPathParts (p : UrlParts) : List (List Char) :=
  (splitOnChar '/' p.path).filter (fun x => !(x == []))

/-- Python `parse_assignment_url` (upload-to-canvas.py, lines 25-43):
require a scheme and a host, split the path on `/` dropping empty segments,
and return `scheme://netloc` together with the segments following the first
`courses` and the first `assignments`; any failure raises `ValueError`. -/
def parse_assignment_url (url : List Char) :
    Except CanvasUrlError (List Char × List Char × List Char) :=
  match urlparseM url with
  | .error e => .error e
  | .ok p =>
      if p.scheme = [] ∨ p.netloc = [] then .error .notValidUrl
      else
        match firstIdx ("courses".toList) (urlPathParts p) with
        | none => .error .badPath
        | some i =>
            match (urlPathParts p).get? (i + 1) with
            | none => .error .badPath
            | some course_id =>
                match firstIdx ("assignments".toList) (urlPathParts p) with
                | none => .error .badPath
                | some j =>
                    match (urlPathParts p).get? (j + 1) with
                    | none => .error .badPath
                    | some assignment_id =>
                        .ok (p.scheme ++ "://".toList ++ p.netloc,
                          course_id, assignment_id)


/-- The input family witnessing divergence of the wrapping loop (C1): a
single recognized `align` environment. -/
def alignCore : List Char :=
  ['\\', 'b', 'e', 'g', 'i', 'n', '\x7b', 'a', 'l', 'i', 'g', 'n', '\x7d', 'x',
   '\\', 'e', 'n', 'd', '\x7b', 'a', 'l', 'i', 'g', 'n', '\x7d']

/-- `alignCore` enclosed in `k` display-bracket pairs; pass `k` of the Python
substitution loop produces `wrappedAlign (k+1)`. -/
def wrappedAlign (k : Nat) : List Char :=
  (List.replicate k ['\\', '[']).flatten ++ alignCore ++
    (List.replicate k ['\\', ']']).flatten

/-! Inclusion resolution (`resolve_inputs`, set-to-html.py lines 89-127;
`strip_comments`, lines 65-81; `INPUT_RE`, line 55).  The filesystem and the
path library are outside the repository, so they enter as parameters: `fs`
maps a path to its contents exactly when the file exists (`os.path.exists`
plus `read_text`), `resolvePath` stands for
`os.path.normpath(os.path.join(base_dir, fname2))` and `dirname` for
`os.path.dirname`. -/

/-- Python `str.splitlines` helper, splitting on the line breaks `\r\n`,
`\r` and `\n` (the breaks that can occur in the converter's input). -/
def pySplitlinesAux : List Char → List Char → List (List Char)
  | acc, [] => [acc.reverse]
  | acc, '\r' :: '\n' :: rest =>
      acc.reverse :: (if rest.isEmpty then [] else pySplitlinesAux [] rest)
  | acc, '\r' :: rest =>
      acc.reverse :: (if rest.isEmpty then [] else pySplitlinesAux [] rest)
  | acc, '\n' :: rest =>
      acc.reverse :: (if rest.isEmpty then [] else pySplitlinesAux [] rest)
  | acc, c :: rest => pySplitlinesAux (c :: acc) rest

/-- Python `str.splitlines` (no trailing empty line, empty string gives no
lines). -/
def pySplitlines (l : List Char) : List (List Char) :=
  if l.isEmpty then [] else pySplitlinesAux [] l

/-- The inner `while True` loop of `strip_comments` on one line: find the
first `%` at or after `i`; a `%` directly preceded by a backslash moves the
search past it, any other `%` cuts the line there. -/
def stripCommentLineLoop (line : List Char) : Nat → Nat → List Char
  | 0, _ => line
  | fuel + 1, i =>
      match findFrom ['%'] line i with
      | none => line
      | some j =>
          if 0 < j ∧ line.get? (j - 1) = some '\\' then
            stripCommentLineLoop line fuel (j + 1)
          else line.take j

/-- Python `strip_comments` (lines 65-81): per line, drop everything from
the first unescaped `%` on, and re-join with `\n`. -/
def strip_comments (l : List Char) : List Char :=
  List.intercalate ['\n']
    ((pySplitlines l).map (fun line => stripCommentLineLoop line (line.length + 1) 0))

/-- CPython `posixpath.splitext(p)[1] != ""` (cf. `splitextRoot`): the name
has an extension iff its last dot comes after its last slash and after at
least one non-dot character of the base name. -/
def hasSplitextExt (p : List Char) : Bool :=
  match rfindIdx '.' p with
  | none => false
  | some dotIndex =>
      let sepIndex : Nat := match rfindIdx '/' p with | some s => s + 1 | none => 0
      decide (sepIndex ≤ dotIndex) &&
        ((p.drop sepIndex).take (dotIndex - sepIndex)).any (fun c => !(c == '.'))

/-- The literal head of `INPUT_RE`. -/
def inputKeyword : List Char := ['\\', 'i', 'n', 'p', 'u', 't']

/-- `INPUT_RE = \input\s*(\{([^}]+)\}|([^\s%]+))` matched at the head of
`l`: on success, the captured file name (group 2, the braced form, is
preferred; group 3, the bare token, is the fallback — exactly the regex
alternation) and the rest of the input after the whole match. -/
def inputMatchAt (l : List Char) : Option (List Char × List Char) :=
  if prefixAt inputKeyword l then
    let rest2 := (l.drop 6).dropWhile isPyWhitespace
    let alt2 : Option (List Char × List Char) :=
      let tok := rest2.takeWhile (fun c => !(isPyWhitespace c) && !(c == '%'))
      if tok.isEmpty then none else some (tok, rest2.drop tok.length)
    match rest2 with
    | '\x7b' :: tail =>
        let inner := tail.takeWhile (fun c => !(c == '\x7d'))
        if inner.isEmpty then alt2
        else
          match tail.drop inner.length with
          | '\x7d' :: after => some (inner, after)
          | _ => alt2
    | _ => alt2
  else none

/-- Leftmost `INPUT_RE` match in `l`:
`(text before the match, captured file name, text after the match)`. -/
def findInputMatch : List Char → Option (List Char × List Char × List Char)
  | [] => none
  | c :: rest =>
      match inputMatchAt (c :: rest) with
      | some (fname, after) => some ([], fname, after)
      | none =>
          match findInputMatch rest with
          | some (pre, fname, after) => some (c :: pre, fname, after)
          | none => none

/-- The marker `f"\n% (missing input file: {fname2})\n"`. -/
def missingInputMarker (fname2 : List Char) : List Char :=
  '\n' :: ("% (missing input file: ".toList ++ fname2 ++ [')', '\n'])

/-- The marker `f"\n% (skipping recursive input: {fname2})\n"`. -/
def skipInputMarker (fname2 : List Char) : List Char :=
  '\n' :: ("% (skipping recursive input: ".toList ++ fname2 ++ [')', '\n'])

mutual

/-- One `INPUT_RE.sub(repl, cur)` pass of `resolve_inputs`: left-to-right
non-overlapping replacement of every directive, threading the mutable
`seen` set through the `repl` calls; `none` models running out of fuel
inside the (possibly divergent) recursive resolution. -/
def inputSubPass (fs : List Char → Option (List Char))
    (resolvePath : List Char → List Char → List Char)
    (dirname : List Char → List Char) :
    Nat → List Char → List Char → List (List Char) →
      Option (List Char × List (List Char))
  | 0, _, _, _ => none
  | fuel + 1, text, base_dir, seen =>
      match findInputMatch text with
      | none => some (text, seen)
      | some (pre, fname0, after) =>
          let fname := pyStrip fname0
          if fname.isEmpty then
            match inputSubPass fs resolvePath dirname fuel after base_dir seen with
            | none => none
            | some (t, seen') => some (pre ++ t, seen')
          else
            let fname2 := if hasSplitextExt fname then fname
                          else fname ++ ".tex".toList
            let path := resolvePath base_dir fname2
            if seen.contains path then
              match inputSubPass fs resolvePath dirname fuel after base_dir seen with
              | none => none
              | some (t, seen') =>
                  some (pre ++ skipInputMarker fname2 ++ t, seen')
            else
              match fs path with
              | none =>
                  match inputSubPass fs resolvePath dirname fuel after base_dir seen with
                  | none => none
                  | some (t, seen') =>
                      some (pre ++ missingInputMarker fname2 ++ t, seen')
              | some raw =>
                  match resolveInputsLoop fs resolvePath dirname fuel
                      (strip_comments raw) (dirname path) (path :: seen) with
                  | none => none
                  | some (content, seen1) =>
                      match inputSubPass fs resolvePath dirname fuel after base_dir seen1 with
                      | none => none
                      | some (t, seen') =>
                          some (pre ++ ('\n' :: content) ++ '\n' :: t, seen')

/-- The `while prev != cur` fixed-point loop of `resolve_inputs` (lines
122-127): substitute until a pass changes nothing. -/
def resolveInputsLoop (fs : List Char → Option (List Char))
    (resolvePath : List Char → List Char → List Char)
    (dirname : List Char → List Char) :
    Nat → List Char → List Char → List (List Char) →
      Option (List Char × List (List Char))
  | 0, _, _, _ => none
  | fuel + 1, cur, base_dir, seen =>
      match inputSubPass fs resolvePath dirname fuel cur base_dir seen with
      | none => none
      | some (next, seen') =>
          if next = cur then some (next, seen')
          else resolveInputsLoop fs resolvePath dirname fuel next base_dir seen'

end

/-- Python `resolve_inputs` (lines 89-127), with the caller-supplied `seen`
set (the top-level call passes the empty set). -/
def resolve_inputs (fs : List Char → Option (List Char))
    (resolvePath : List Char → List Char → List Char)
    (dirname : List Char → List Char) (fuel : Nat)
    (tex base_dir : List Char) (seen : List (List Char)) :
    Option (List Char × List (List Char)) :=
  resolveInputsLoop fs resolvePath dirname fuel tex base_dir seen

/-! A symbolic shape for documents handed to `resolve_inputs`: an arbitrary
interleaving of plain text chunks and inclusion directives.  A directive
item carries its literal source text `d` (braced `\input{name}` or bare
`\input name`) together with the file name the regex captures from it. -/

inductive DocItem where
  | text (t : List Char)
  | directive (d : List Char) (fname : List Char)
deriving DecidableEq

/-- The document text an item list denotes. -/
def renderDoc : List DocItem → List Char
  | [] => []
  | DocItem.text t :: rest => t ++ renderDoc rest
  | DocItem.directive d _ :: rest => d ++ renderDoc rest

/-- No backslash occurs in `l` (so no `INPUT_RE` match can start inside it,
in any context: every pattern character after the leading `\` is a
letter). -/
def backslashFree (l : List Char) : Bool := l.all (fun c => !(c == '\\'))

/-- The `fname2` the `repl` closure derives from a captured name: strip,
then default the extension to `.tex` (lines 98-106). -/
def inputFname2 (fname0 : List Char) : List Char :=
  if hasSplitextExt (pyStrip fname0) then pyStrip fname0
  else pyStrip fname0 ++ ".tex".toList

/-- Number of directive items. -/
def countDirectives : List DocItem → Nat
  | [] => 0
  | DocItem.text _ :: rest => countDirectives rest
  | DocItem.directive _ _ :: rest => 1 + countDirectives rest

/-- The document class the C7 claim quantifies over: text chunks are
backslash-free, every directive's source text matches `INPUT_RE` in its
context capturing exactly its file name, every captured name is nonempty
after stripping and backslash-free, and every directive's resolved target
is already visited or absent from the filesystem. -/
def goodDoc (fs : List Char → Option (List Char))
    (resolvePath : List Char → List Char → List Char)
    (base_dir : List Char) (seen : List (List Char)) : List DocItem → Bool
  | [] => true
  | DocItem.text t :: rest => backslashFree t && goodDoc fs resolvePath base_dir seen rest
  | DocItem.directive d fname :: rest =>
      (inputMatchAt (d ++ renderDoc rest) == some (fname, renderDoc rest)) &&
      !(pyStrip fname).isEmpty &&
      backslashFree (pyStrip fname) &&
      (seen.contains (resolvePath base_dir (inputFname2 fname)) ||
        (fs (resolvePath base_dir (inputFname2 fname))).isNone) &&
      goodDoc fs resolvePath base_dir seen rest

/-- The text the claim predicts: each text chunk kept, each directive
replaced by the skip marker when its target is visited and by the missing
marker otherwise. -/
def renderResolved (resolvePath : List Char → List Char → List Char)
    (base_dir : List Char) (seen : List (List Char)) : List DocItem → List Char
  | [] => []
  | DocItem.text t :: rest => t ++ renderResolved resolvePath base_dir seen rest
  | DocItem.directive _ fname :: rest =>
      (if seen.contains (resolvePath base_dir (inputFname2 fname))
       then skipInputMarker (inputFname2 fname)
       else missingInputMarker (inputFname2 fname)) ++
        renderResolved resolvePath base_dir seen rest

/-! Inline LaTeX-to-HTML conversion (`latex_to_html_inline`, lines 475-518;
`replace_command_arg_balanced`, lines 389-418; `convert_lists`, lines
357-386; `split_top_level_items`, lines 325-354).  These functions are
mutually recursive in the Python source and can both raise (`ValueError`
escaping from `find_matching_env`) and diverge (the fixed-point loop of
`wrap_math_environments_in_brackets`), so the embedding returns a
three-valued result and threads explicit fuel. -/

/-- Result of a conversion step: HTML output, an uncaught Python exception,
or fuel exhaustion (the divergence witness). -/
inductive HtmlRes where
  | ok (out : List Char)
  | exn (msg : String)
  | fuelOut
deriving DecidableEq

/-- The character class `[ \t]` of the whitespace-cleaning substitutions. -/
def isSpaceTab (c : Char) : Bool := c = ' ' || c = '\t'

/-- `re.sub(r"[ \t]+\n", "\n", t)`: a maximal run of blanks directly before
a newline is dropped. -/
def cleanWsNlF : Nat → List Char → List Char
  | 0, l => l
  | _ + 1, [] => []
  | fuel + 1, c :: rest =>
      if isSpaceTab c then
        match (c :: rest).dropWhile isSpaceTab with
        | '\n' :: rest3 => '\n' :: cleanWsNlF fuel rest3
        | other => (c :: rest).takeWhile isSpaceTab ++ cleanWsNlF fuel other
      else c :: cleanWsNlF fuel rest

def cleanWsNl (l : List Char) : List Char := cleanWsNlF l.length l

/-- `re.sub(r"\n[ \t]+", "\n", t)`: a maximal run of blanks directly after
a newline is dropped. -/
def cleanNlWsF : Nat → List Char → List Char
  | 0, l => l
  | _ + 1, [] => []
  | fuel + 1, c :: rest =>
      if c = '\n' then
        match rest with
        | r :: _ =>
            if isSpaceTab r then '\n' :: cleanNlWsF fuel (rest.dropWhile isSpaceTab)
            else '\n' :: cleanNlWsF fuel rest
        | [] => ['\n']
      else c :: cleanNlWsF fuel rest

def cleanNlWs (l : List Char) : List Char := cleanNlWsF l.length l

/-- The chain of `str.replace` calls (lines 510-515) undoing the escaping of
the HTML tags the converter itself inserted, in source order. -/
def unescapeInsertedTags (l : List Char) : List Char :=
  replaceAll ("&lt;/li&gt;".toList) ("</li>".toList)
    (replaceAll ("&lt;li ".toList) ("<li ".toList)
      (replaceAll ("&lt;/ul&gt;".toList) ("</ul>".toList)
        (replaceAll ("&lt;ul ".toList) ("<ul ".toList)
          (replaceAll ("&lt;/ol&gt;".toList) ("</ol>".toList)
            (replaceAll ("&lt;ol ".toList) ("<ol ".toList)
              (replaceAll ("&lt;br/&gt;".toList) ("<br/>".toList)
                (replaceAll ("&lt;/strong&gt;".toList) ("</strong>".toList)
                  (replaceAll ("&lt;strong&gt;".toList) ("<strong>".toList)
                    (replaceAll ("&lt;/em&gt;".toList) ("</em>".toList)
                      (replaceAll ("&lt;em&gt;".toList) ("<em>".toList) l))))))))))

/-- The inner argument scan of `replace_command_arg_balanced` (lines
403-413): from `depth`, consume characters (skipping `\x` pairs without
depth changes) until the depth returns to zero or the input ends; the
closing brace is the last consumed character.  Returns `(consumed, rest)`. -/
def balArgScan : Nat → Nat → List Char → List Char × List Char
  | 0, _, l => ([], l)
  | fuel + 1, depth, l =>
      match l with
      | [] => ([], [])
      | c1 :: rest =>
          if depth = 0 then ([], c1 :: rest)
          else if c1 = '\\' then
            match rest with
            | c2 :: rest2 =>
                (c1 :: c2 :: (balArgScan fuel depth rest2).1,
                  (balArgScan fuel depth rest2).2)
            | [] => ([c1], [])
          else
            (c1 :: (balArgScan fuel (if c1 = '\x7b' then depth + 1
                else if c1 = '\x7d' then depth - 1 else depth) rest).1,
              (balArgScan fuel (if c1 = '\x7b' then depth + 1
                else if c1 = '\x7d' then depth - 1 else depth) rest).2)

/-- The literal `\item`. -/
def itemTag : List Char := ['\\', 'i', 't', 'e', 'm']

/-- `\item\b` matches at the head of `l`. -/
def itemMatchAt (l : List Char) : Bool :=
  prefixAt itemTag l &&
    (match (l.drop 5).head? with
     | some c => !(isWordChar c)
     | none => true)

/-- Index of the first `\item\b` match. -/
def findItemIdx : List Char → Option Nat
  | [] => none
  | c :: rest =>
      if itemMatchAt (c :: rest) then some 0
      else (findItemIdx rest).map (· + 1)

/-- All `\item\b` match starts (the `while m:` loop of
`split_top_level_items`, searching from each match's end). -/
def itemStartsF (body : List Char) : Nat → Nat → List Nat
  | 0, _ => []
  | fuel + 1, i =>
      match (findItemIdx (body.drop i)).map (· + i) with
      | none => []
      | some st => st :: itemStartsF body fuel (st + 5)

/-- The slicing loop of `split_top_level_items`: each chunk runs from just
after one `\item` to the next start (or the end), stripped. -/
def sliceItemChunks (env_body : List Char) : List Nat → List (List Char)
  | [] => []
  | [st] => [pyStrip (env_body.drop (st + 5))]
  | st :: st2 :: rest =>
      pyStrip ((env_body.drop (st + 5)).take (st2 - (st + 5))) ::
        sliceItemChunks env_body (st2 :: rest)

/-- Python `split_top_level_items` (lines 325-354). -/
def split_top_level_items (env_body : List Char) : List (List Char) :=
  match findItemIdx env_body with
  | none => if (pyStrip env_body).isEmpty then [] else [pyStrip env_body]
  | some _ => sliceItemChunks env_body (itemStartsF env_body (env_body.length + 1) 0)

/-- First match of `\begin{(enumerate|itemize)}`: start index and captured
environment name. -/
def findBeginList : List Char → Option (Nat × List Char)
  | [] => none
  | c :: rest =>
      if prefixAt (beginTagOf ("enumerate".toList)) (c :: rest) then
        some (0, "enumerate".toList)
      else if prefixAt (beginTagOf ("itemize".toList)) (c :: rest) then
        some (0, "itemize".toList)
      else (findBeginList rest).map (fun p => (p.1 + 1, p.2))

def liOpenTag : List Char := "<li style=\"margin: 0.35em 0;\">".toList

def liCloseTag : List Char := "</li>".toList

/-- The `f"<{tag} style=...>{''.join(li_html)}</{tag}>"` block of
`convert_lists`. -/
def listBlockHtml (tag lis : List Char) : List Char :=
  ('<' :: tag) ++
    " style=\"margin: 0.6em 0 0.6em 1.2em; padding-left: 1.2em;\">".toList ++
    lis ++ ("</".toList ++ tag ++ ['>'])

mutual

/-- Python `convert_lists` (lines 357-386): repeatedly replace the first
`enumerate`/`itemize` environment (recursing into its body) until none is
left; an uncaught `ValueError` from `find_matching_env` propagates. -/
def convert_listsF (altOrder : Bool) : Nat → List Char → HtmlRes
  | 0, _ => .fuelOut
  | fuel + 1, tex =>
      match findBeginList tex with
      | none => .ok tex
      | some (begin_pos, env) =>
          match find_matching_env tex begin_pos env with
          | .error e => .exn e
          | .ok end_pos =>
              match findFrom (endTagOf env) tex end_pos with
              | none => .ok tex
              | some et =>
                  match convert_listsF altOrder fuel
                      ((tex.drop (begin_pos + (beginTagOf env).length)).take
                        (end_pos - (begin_pos + (beginTagOf env).length))) with
                  | .ok inner2 =>
                      match itemsHtmlF altOrder fuel (split_top_level_items inner2) with
                      | .ok lis =>
                          convert_listsF altOrder fuel
                            (tex.take begin_pos ++
                              listBlockHtml
                                (if env = "enumerate".toList then "ol".toList
                                 else "ul".toList) lis ++
                              tex.drop (et + (endTagOf env).length))
                      | e => e
                  | e => e

/-- The `for it in items` loop of `convert_lists`: each item is converted
with `latex_to_html_inline` and wrapped in a styled `<li>`. -/
def itemsHtmlF (altOrder : Bool) : Nat → List (List Char) → HtmlRes
  | 0, _ => .fuelOut
  | _ + 1, [] => .ok []
  | fuel + 1, it :: rest =>
      match latex_to_html_inlineF altOrder fuel it with
      | .ok h =>
          match itemsHtmlF altOrder fuel rest with
          | .ok t => .ok (liOpenTag ++ h ++ liCloseTag ++ t)
          | e => e
      | e => e

/-- Python `latex_to_html_inline` (lines 475-518): list conversion, math
wrapping, dollar normalization, math/text segmentation, then per-segment
processing.  `altOrder = false` is the source's command order. -/
def latex_to_html_inlineF (altOrder : Bool) : Nat → List Char → HtmlRes
  | 0, _ => .fuelOut
  | fuel + 1, tex =>
      match convert_listsF altOrder fuel tex with
      | .ok t1 =>
          match wrap_math_environments_in_brackets fuel t1 with
          | none => .fuelOut
          | some t2 =>
              procSegsF altOrder fuel
                (split_by_math_segments
                  (convert_dollar_math_to_paren_bracket false false t2))
      | e => e

/-- The three `replace_command_arg_balanced` steps of the text branch.
`altOrder = false` is the source order (`emph`, `textbf`, `textit`);
`altOrder = true` resolves `textbf` before `emph` — the claim's alternative
processing order, used only to state order-independence. -/
def cmdChainF (altOrder : Bool) : Nat → List Char → HtmlRes
  | 0, _ => .fuelOut
  | fuel + 1, seg =>
      if altOrder then
        match replaceCmdArgF altOrder fuel seg ("textbf".toList)
            ("<strong>".toList) ("</strong>".toList) with
        | .ok a =>
            match replaceCmdArgF altOrder fuel a ("emph".toList)
                ("<em>".toList) ("</em>".toList) with
            | .ok b =>
                replaceCmdArgF altOrder fuel b ("textit".toList)
                  ("<em>".toList) ("</em>".toList)
            | e => e
        | e => e
      else
        match replaceCmdArgF altOrder fuel seg ("emph".toList)
            ("<em>".toList) ("</em>".toList) with
        | .ok a =>
            match replaceCmdArgF altOrder fuel a ("textbf".toList)
                ("<strong>".toList) ("</strong>".toList) with
            | .ok b =>
                replaceCmdArgF altOrder fuel b ("textit".toList)
                  ("<em>".toList) ("</em>".toList)
            | e => e
        | e => e

/-- The `for is_math, seg in segs` loop (lines 490-516): math segments are
HTML-escaped; text segments get the command replacements, `\\` to `<br/>`,
whitespace cleaning, HTML escaping, and the tag-unescaping fix-up. -/
def procSegsF (altOrder : Bool) : Nat → List (Bool × List Char) → HtmlRes
  | 0, _ => .fuelOut
  | _ + 1, [] => .ok []
  | fuel + 1, (is_math, seg) :: rest =>
      if is_math then
        match procSegsF altOrder fuel rest with
        | .ok t => .ok (html_escape_content seg ++ t)
        | e => e
      else
        match cmdChainF altOrder fuel seg with
        | .ok c =>
            match procSegsF altOrder fuel rest with
            | .ok t =>
                .ok (unescapeInsertedTags (html_escape_content
                      (cleanNlWs (cleanWsNl (replaceAll ['\\', '\\']
                        ("<br/>".toList) c)))) ++ t)
            | e => e
        | e => e

/-- Python `replace_command_arg_balanced` (lines 389-418): replace each
`\cmd{...}` (brace-balanced, escape-aware) with
`open_tag ++ latex_to_html_inline(content) ++ close_tag`; the content is
the consumed argument without its final character. -/
def replaceCmdArgF (altOrder : Bool) :
    Nat → List Char → List Char → List Char → List Char → HtmlRes
  | 0, _, _, _, _ => .fuelOut
  | fuel + 1, s, cmd, openT, closeT =>
      match splitAtFirst ('\\' :: (cmd ++ ['\x7b'])) s with
      | none => .ok s
      | some (pre, rest) =>
          match latex_to_html_inlineF altOrder fuel
              ((balArgScan rest.length 1 rest).1.dropLast) with
          | .ok ch =>
              match replaceCmdArgF altOrder fuel
                  (balArgScan rest.length 1 rest).2 cmd openT closeT with
              | .ok t => .ok (pre ++ openT ++ ch ++ closeT ++ t)
              | e => e
          | e => e

end

/-- Python `latex_to_html_inline` with the source's processing order. -/
def latex_to_html_inline (fuel : Nat) (tex : List Char) : HtmlRes :=
  latex_to_html_inlineF false fuel tex

/-- `latex_to_html_inline` with the alternative command-resolution order
(`textbf` before `emph`), for the claim's order-independence statement. -/
def latex_to_html_inline_altOrder (fuel : Nat) (tex : List Char) : HtmlRes :=
  latex_to_html_inlineF true fuel tex

lemma countEscDollar_cons_of_ne (c : Char) (hc : c ≠ '\\') (l : List Char) :
    countEscDollar (c :: l) = countEscDollar l := by
  cases l with
  | nil => simp [countEscDollar]
  | cons y ys => simp [countEscDollar, hc]

lemma countEscDollar_cons_backslash (l : List Char) (h : l.head? ≠ some '$') :
    countEscDollar ('\\' :: l) = countEscDollar l := by
  cases l with
  | nil => simp [countEscDollar]
  | cons y ys =>
    have hy : y ≠ '$' := by simpa using h
    simp [countEscDollar, hy]

lemma countBareDollar_cons_of_ne (c : Char) (hc : c ≠ '\\') (l : List Char) :
    countBareDollar (c :: l) = (if c = '$' then 1 else 0) + countBareDollar l := by
  cases l with
  | nil => simp [countBareDollar]
  | cons y ys => simp [countBareDollar, hc]

lemma countBareDollar_cons_backslash (l : List Char) (h : l.head? ≠ some '$') :
    countBareDollar ('\\' :: l) = countBareDollar l := by
  cases l with
  | nil => simp [countBareDollar]
  | cons y ys =>
    have hy : y ≠ '$' := by simpa using h
    simp [countBareDollar, hy]

lemma convDollar_head_ne (inl ind : Bool) (l : List Char) (h : l.head? ≠ some '$') :
    (convert_dollar_math_to_paren_bracket inl ind l).head? ≠ some '$' := by
  match l with
  | [] => simp [convert_dollar_math_to_paren_bracket]
  | [c] =>
    have hc : c ≠ '$' := by simpa using h
    simp [convert_dollar_math_to_paren_bracket, hc]
  | c1 :: c2 :: rest =>
    have hc1 : c1 ≠ '$' := by simpa using h
    by_cases he : c1 = '\\' ∧ c2 = '$'
    · simp [convert_dollar_math_to_paren_bracket, he]
    · simp only [convert_dollar_math_to_paren_bracket, if_neg he, hc1,
        if_neg (by simp [hc1] : ¬(c1 = '$' ∧ c2 = '$')), if_neg hc1]
      simp [hc1]

lemma countEscDollar_conv (inl ind : Bool) (l : List Char) :
    countEscDollar (convert_dollar_math_to_paren_bracket inl ind l) =
      countEscDollar l := by
  induction inl, ind, l using convert_dollar_math_to_paren_bracket.induct with
  | case1 inl ind => simp [convert_dollar_math_to_paren_bracket, countEscDollar]
  | case2 inl =>
    simp +decide [convert_dollar_math_to_paren_bracket, countEscDollar]
  | case3 ind hd =>
    simp +decide [convert_dollar_math_to_paren_bracket, countEscDollar, hd]
  | case4 inl ind hd hi =>
    simp +decide [convert_dollar_math_to_paren_bracket, countEscDollar, hd, hi]
  | case5 inl ind c hc =>
    simp [convert_dollar_math_to_paren_bracket, countEscDollar, hc]
  | case6 inl ind c1 c2 rest he ih =>
    obtain ⟨h1, h2⟩ := he
    subst h1; subst h2
    simp +decide [convert_dollar_math_to_paren_bracket, countEscDollar, ih]
  | case7 inl ind c1 c2 rest hne hdd ih =>
    obtain ⟨h1, h2⟩ := hdd
    subst h1; subst h2
    cases ind <;> simp only [Bool.not_false, Bool.not_true] at ih <;>
      simp +decide [convert_dollar_math_to_paren_bracket, countEscDollar,
        countEscDollar_cons_of_ne, countEscDollar_cons_backslash, ih]
  | case8 inl c2 rest hne hdd ih =>
    have hc2 : c2 ≠ '$' := fun hx => hdd ⟨rfl, hx⟩
    simp +decide [convert_dollar_math_to_paren_bracket, countEscDollar,
      countEscDollar_cons_of_ne, hc2, ih]
  | case9 inl ind c2 rest hd hne hdd ih =>
    have hc2 : c2 ≠ '$' := fun hx => hdd ⟨rfl, hx⟩
    rw [Bool.not_eq_true] at hd
    subst hd
    cases inl <;> simp only [Bool.not_false, Bool.not_true] at ih <;>
      simp +decide [convert_dollar_math_to_paren_bracket, countEscDollar,
        countEscDollar_cons_of_ne, countEscDollar_cons_backslash, hc2, ih]
  | case10 inl ind c1 c2 rest hne hdd hc1 ih =>
    rw [show convert_dollar_math_to_paren_bracket inl ind (c1 :: c2 :: rest)
          = c1 :: convert_dollar_math_to_paren_bracket inl ind (c2 :: rest) by
        simp [convert_dollar_math_to_paren_bracket, hne, hdd, hc1]]
    by_cases hb : c1 = '\\'
    · subst hb
      have hc2 : c2 ≠ '$' := by
        intro hx; exact hne ⟨rfl, hx⟩
      rw [countEscDollar_cons_backslash _ (convDollar_head_ne _ _ _ (by simp [hc2])),
        ih, countEscDollar_cons_backslash _ (by simp [hc2])]
    · rw [countEscDollar_cons_of_ne _ hb, ih, countEscDollar_cons_of_ne _ hb]

lemma countBareDollar_conv (inl ind : Bool) (l : List Char) :
    countBareDollar (convert_dollar_math_to_paren_bracket inl ind l) =
      countDisplayLoneDollar inl ind l := by
  induction inl, ind, l using convert_dollar_math_to_paren_bracket.induct with
  | case1 inl ind =>
    simp [convert_dollar_math_to_paren_bracket, countBareDollar, countDisplayLoneDollar]
  | case2 inl =>
    simp +decide [convert_dollar_math_to_paren_bracket, countBareDollar,
      countDisplayLoneDollar]
  | case3 ind hd =>
    simp +decide [convert_dollar_math_to_paren_bracket, countBareDollar,
      countDisplayLoneDollar, hd]
  | case4 inl ind hd hi =>
    simp +decide [convert_dollar_math_to_paren_bracket, countBareDollar,
      countDisplayLoneDollar, hd, hi]
  | case5 inl ind c hc =>
    simp [convert_dollar_math_to_paren_bracket, countBareDollar,
      countDisplayLoneDollar, hc]
  | case6 inl ind c1 c2 rest he ih =>
    obtain ⟨h1, h2⟩ := he
    subst h1; subst h2
    simp +decide [convert_dollar_math_to_paren_bracket, countBareDollar,
      countDisplayLoneDollar, ih]
  | case7 inl ind c1 c2 rest hne hdd ih =>
    obtain ⟨h1, h2⟩ := hdd
    subst h1; subst h2
    cases ind <;> simp only [Bool.not_false, Bool.not_true] at ih <;>
      simp +decide [convert_dollar_math_to_paren_bracket, countBareDollar,
        countDisplayLoneDollar, countBareDollar_cons_of_ne,
        countBareDollar_cons_backslash, ih]
  | case8 inl c2 rest hne hdd ih =>
    have hc2 : c2 ≠ '$' := fun hx => hdd ⟨rfl, hx⟩
    simp +decide [convert_dollar_math_to_paren_bracket, countBareDollar,
      countDisplayLoneDollar, countBareDollar_cons_of_ne, hc2, ih]
  | case9 inl ind c2 rest hd hne hdd ih =>
    have hc2 : c2 ≠ '$' := fun hx => hdd ⟨rfl, hx⟩
    rw [Bool.not_eq_true] at hd
    subst hd
    cases inl <;> simp only [Bool.not_false, Bool.not_true] at ih <;>
      simp +decide [convert_dollar_math_to_paren_bracket, countBareDollar,
        countDisplayLoneDollar, countBareDollar_cons_of_ne,
        countBareDollar_cons_backslash, hc2, ih]
  | case10 inl ind c1 c2 rest hne hdd hc1 ih =>
    have hr : countDisplayLoneDollar inl ind (c1 :: c2 :: rest) =
        countDisplayLoneDollar inl ind (c2 :: rest) := by
      simp [countDisplayLoneDollar, hne, hdd, hc1]
    rw [show convert_dollar_math_to_paren_bracket inl ind (c1 :: c2 :: rest)
          = c1 :: convert_dollar_math_to_paren_bracket inl ind (c2 :: rest) by
        simp [convert_dollar_math_to_paren_bracket, hne, hdd, hc1],
      hr, ← ih]
    by_cases hb : c1 = '\\'
    · subst hb
      have hc2 : c2 ≠ '$' := by
        intro hx; exact hne ⟨rfl, hx⟩
      rw [countBareDollar_cons_backslash _ (convDollar_head_ne _ _ _ (by simp [hc2]))]
    · rw [countBareDollar_cons_of_ne _ hb, if_neg hc1]
      simp

theorem c3_counterexample :
    ¬ (countEscDollar (convert_dollar_math_to_paren_bracket false false
          ("$$ $ $$".toList)) = countEscDollar ("$$ $ $$".toList) ∧
       countBareDollar (convert_dollar_math_to_paren_bracket false false
          ("$$ $ $$".toList)) % 2 = 0) := by
  decide

/-- C3 (amended): the dollar-delimiter normalization emits exactly as many
literal escaped delimiters as the input contains (none toggles math state),
and the non-escaped dollars remaining in its output are exactly the lone
dollars scanned while display mode is open — in particular their number is
even (namely zero) whenever no lone dollar occurs inside display math. -/
theorem c3_normalization_counts (l : List Char) :
    countEscDollar (convert_dollar_math_to_paren_bracket false false l) =
        countEscDollar l ∧
    countBareDollar (convert_dollar_math_to_paren_bracket false false l) =
        countDisplayLoneDollar false false l :=
  ⟨countEscDollar_conv false false l, countBareDollar_conv false false l⟩

/-! Theorems for C4 (segmentation round trip). -/

lemma segsJoin_splitF (fuel : Nat) (l : List Char) : l.length ≤ fuel →
    segsJoin (splitMathSegsF fuel l) = l := by
  induction fuel, l using splitMathSegsF.induct with
  | case1 l =>
    intro hl
    cases l with
    | nil => simp [splitMathSegsF, segsJoin]
    | cons c rest => simp at hl
  | case2 fuel => intro _; simp [splitMathSegsF, segsJoin]
  | case3 fuel rest b r hm ih =>
    intro hl
    simp only [splitMathSegsF, hm]
    have hbr := takeMathBody_append ')' rest b r hm
    have hlen : b.length + r.length = rest.length := by
      simpa using congrArg List.length hbr
    simp only [segsJoin, List.map_cons, List.flatten_cons] at *
    rw [ih (by simp at hl; omega)]
    simpa using hbr
  | case4 fuel rest hm =>
    intro hl
    simp only [splitMathSegsF, hm]
    simp [segsJoin]
  | case5 fuel rest b r hm ih =>
    intro hl
    simp only [splitMathSegsF, hm]
    have hbr := takeMathBody_append ']' rest b r hm
    have hlen : b.length + r.length = rest.length := by
      simpa using congrArg List.length hbr
    simp only [segsJoin, List.map_cons, List.flatten_cons] at *
    rw [ih (by simp at hl; omega)]
    simpa using hbr
  | case6 fuel rest hm =>
    intro hl
    simp only [splitMathSegsF, hm]
    simp [segsJoin]
  | case7 fuel c rest h1 h2 ih =>
    intro hl
    simp only [splitMathSegsF]
    have ht := takeText_append rest
    have hlen : (takeText rest).1.length + (takeText rest).2.length = rest.length := by
      simpa using congrArg List.length ht
    simp only [segsJoin, List.map_cons, List.flatten_cons] at *
    rw [ih (by simp at hl; omega)]
    simpa using congrArg (c :: ·) ht

lemma segsJoin_split (l : List Char) :
    segsJoin (split_by_math_segments l) = l :=
  segsJoin_splitF l.length l (Nat.le_refl _)

/-- C4: the concatenation of the segments produced by
`split_by_math_segments` reconstructs the input exactly, and re-running the
segmentation on that concatenation reproduces the identical ordered sequence
of `(is_math, text)` segments (idempotence). -/
theorem c4_segmentation_roundtrip (l : List Char) :
    segsJoin (split_by_math_segments l) = l ∧
    split_by_math_segments (segsJoin (split_by_math_segments l)) =
      split_by_math_segments l :=
  ⟨segsJoin_split l, by rw [segsJoin_split l]⟩

/-! Theorems for C10 (body isolation). -/

lemma findIn_eq_specFirstMatch (pat : List Char) : ∀ (l : List Char),
    findIn pat l = specFirstMatch pat l := by
  intro l
  induction l with
  | nil =>
    rw [findIn, specFirstMatch]
    rw [show List.range (List.length ([] : List Char) + 1) = [0] from rfl]
    rw [List.find?]
    split <;> rename_i hx <;> simp_all
  | cons c rest ih =>
    rw [findIn, specFirstMatch]
    rw [show (c :: rest).length + 1 = (rest.length + 1) + 1 from rfl,
      List.range_succ_eq_map]
    rw [List.find?]
    by_cases hp : prefixAt pat (c :: rest) = true
    · simp [hp]
    · rw [if_neg hp]
      have hp0 : prefixAt pat (List.drop 0 (c :: rest)) = false := by
        simpa using hp
      rw [hp0, List.find?_map]
      rw [ih, specFirstMatch]
      rfl

/-- C10: `body_between_document` agrees with the specification-side function
`bodySpecC10` on every input — the whole input is returned when either
document marker is missing or the first end marker starts at or before the
end of the first begin marker, and otherwise exactly the text strictly
between the two markers is returned. -/
theorem c10_body_between_document_correct (l : List Char) :
    body_between_document l = bodySpecC10 l := by
  unfold body_between_document bodySpecC10
  rw [← findIn_eq_specFirstMatch, ← findIn_eq_specFirstMatch]
  cases h1 : findIn beginDocumentTag l with
  | none => rfl
  | some i =>
    cases h2 : findIn endDocumentTag l with
    | none => rfl
    | some j =>
      simp only
      split
      · rfl
      · rw [List.drop_take]

/-! Theorems for C1 (divergence of the math-environment wrapping loop). -/

lemma tryBeginMatch_bsl_openbr (Y : List Char) :
    tryBeginMatch ('\\' :: '[' :: Y) = none := by
  simp +decide [tryBeginMatch, beginTagPrefix, prefixAt]

lemma tryBeginMatch_openbr (Y : List Char) :
    tryBeginMatch ('[' :: Y) = none := by
  simp +decide [tryBeginMatch, beginTagPrefix, prefixAt]

lemma tryBeginMatch_bsl_closebr (Y : List Char) :
    tryBeginMatch ('\\' :: ']' :: Y) = none := by
  simp +decide [tryBeginMatch, beginTagPrefix, prefixAt]

lemma tryBeginMatch_closebr (Y : List Char) :
    tryBeginMatch (']' :: Y) = none := by
  simp +decide [tryBeginMatch, beginTagPrefix, prefixAt]

lemma wrapMathPassF_irrel (f1 : Nat) : ∀ (f2 : Nat) (l : List Char),
    l.length ≤ f1 → l.length ≤ f2 → wrapMathPassF f1 l = wrapMathPassF f2 l := by
  induction f1 with
  | zero =>
    intro f2 l h1 h2
    have hnil : l = [] := by
      cases l with
      | nil => rfl
      | cons c rest => simp at h1
    subst hnil
    cases f2 <;> rfl
  | succ f1 ih =>
    intro f2 l h1 h2
    cases l with
    | nil => cases f2 <;> rfl
    | cons c rest =>
      cases f2 with
      | zero => simp at h2
      | succ f2 =>
        simp only [wrapMathPassF]
        cases htb : tryBeginMatch (c :: rest) with
        | some p =>
          obtain ⟨env, body, after⟩ := p
          simp only [htb]
          have hafter := tryBeginMatch_length _ _ _ _ htb
          congr 1
          exact ih f2 after (by simp at hafter h1 ⊢; omega)
            (by simp at hafter h2 ⊢; omega)
        | none =>
          simp only [htb]
          congr 1
          exact ih f2 rest (by simp at h1 ⊢; omega) (by simp at h2 ⊢; omega)

lemma wrapMathPass_cons_none (c : Char) (rest : List Char)
    (h : tryBeginMatch (c :: rest) = none) :
    wrapMathPass (c :: rest) = c :: wrapMathPass rest := by
  unfold wrapMathPass
  rw [show (c :: rest).length = rest.length + 1 from rfl]
  simp only [wrapMathPassF, h]

lemma wrapMathPass_cons_some (c : Char) (rest env body after : List Char)
    (h : tryBeginMatch (c :: rest) = some (env, body, after)) :
    wrapMathPass (c :: rest) =
      (if env ∈ MATH_BLOCK_ENVS then
         '\\' :: '[' :: (beginTagOf env ++ body ++ endTagOf env ++ ['\\', ']'])
       else beginTagOf env ++ body ++ endTagOf env) ++ wrapMathPass after := by
  unfold wrapMathPass
  rw [show (c :: rest).length = rest.length + 1 from rfl]
  simp only [wrapMathPassF, h]
  congr 1
  have hafter := tryBeginMatch_length _ _ _ _ h
  exact wrapMathPassF_irrel rest.length after.length after
    (by simp at hafter; omega) (Nat.le_refl _)

lemma wrapMathPass_openBrackets (k : Nat) (rest : List Char) :
    wrapMathPass ((List.replicate k ['\\', '[']).flatten ++ rest) =
      (List.replicate k ['\\', '[']).flatten ++ wrapMathPass rest := by
  induction k with
  | zero => simp
  | succ k ih =>
    have hx : (List.replicate (k + 1) ['\\', '[']).flatten ++ rest
        = '\\' :: '[' :: ((List.replicate k ['\\', '[']).flatten ++ rest) := by
      simp [List.replicate_succ]
    rw [hx, wrapMathPass_cons_none _ _ (tryBeginMatch_bsl_openbr _),
      wrapMathPass_cons_none _ _ (tryBeginMatch_openbr _), ih]
    simp [List.replicate_succ]

lemma wrapMathPass_closeBrackets (k : Nat) :
    wrapMathPass ((List.replicate k ['\\', ']']).flatten) =
      (List.replicate k ['\\', ']']).flatten := by
  induction k with
  | zero => rfl
  | succ k ih =>
    have hx : (List.replicate (k + 1) ['\\', ']']).flatten
        = '\\' :: ']' :: (List.replicate k ['\\', ']']).flatten := by
      simp [List.replicate_succ]
    rw [hx, wrapMathPass_cons_none _ _ (tryBeginMatch_bsl_closebr _),
      wrapMathPass_cons_none _ _ (tryBeginMatch_closebr _), ih]

lemma tryBeginMatch_alignCore (rest : List Char) :
    tryBeginMatch (alignCore ++ rest) = some ("align".toList, ['x'], rest) := by
  have h1 : splitAtFirst (endTagOf ("align".toList))
      ('x' :: (endTagOf ("align".toList) ++ rest)) = some (['x'], rest) := by
    rw [splitAtFirst]
    rw [show prefixAt (endTagOf ("align".toList))
          ('x' :: (endTagOf ("align".toList) ++ rest)) = false by
        simp +decide [endTagOf, prefixAt]]
    rw [splitAtFirst_self_append (endTagOf ("align".toList)) rest
      (by simp [endTagOf])]
    simp
  rw [tryBeginMatch]
  rw [show prefixAt beginTagPrefix (alignCore ++ rest) = true by
    simp +decide [beginTagPrefix, prefixAt, alignCore]]
  simp only [if_pos]
  rw [show (alignCore ++ rest).drop 7
        = 'a' :: 'l' :: 'i' :: 'g' :: 'n' :: '\x7d' :: 'x' ::
            (endTagOf ("align".toList) ++ rest) by
      simp +decide [alignCore, endTagOf]]
  rw [show ('a' :: 'l' :: 'i' :: 'g' :: 'n' :: '\x7d' :: 'x' ::
        (endTagOf ("align".toList) ++ rest)).takeWhile isEnvNameChar
      = "align".toList by simp +decide [List.takeWhile, isEnvNameChar]]
  rw [show ('a' :: 'l' :: 'i' :: 'g' :: 'n' :: '\x7d' :: 'x' ::
        (endTagOf ("align".toList) ++ rest)).dropWhile isEnvNameChar
      = '\x7d' :: 'x' :: (endTagOf ("align".toList) ++ rest) by
    simp +decide [List.dropWhile, isEnvNameChar]]
  rw [if_pos (by simp +decide)]
  simp only [List.tail_cons]
  rw [h1]

lemma wrapMathPass_alignCore (rest : List Char) :
    wrapMathPass (alignCore ++ rest) =
      ['\\', '['] ++ alignCore ++ ['\\', ']'] ++ wrapMathPass rest := by
  have hsh : alignCore ++ rest =
      '\\' :: (['b', 'e', 'g', 'i', 'n', '\x7b', 'a', 'l', 'i', 'g', 'n', '\x7d',
        'x', '\\', 'e', 'n', 'd', '\x7b', 'a', 'l', 'i', 'g', 'n', '\x7d'] ++ rest) := by
    simp [alignCore]
  have htb := tryBeginMatch_alignCore rest
  rw [hsh] at htb
  rw [hsh, wrapMathPass_cons_some _ _ _ _ _ htb]
  rw [if_pos (by decide)]
  rw [show beginTagOf ("align".toList) ++ ['x'] ++ endTagOf ("align".toList) ++
        ['\\', ']'] = alignCore ++ ['\\', ']'] by decide]
  simp

lemma flatten_replicate_comm (k : Nat) (x : List Char) :
    (List.replicate k x).flatten ++ x = x ++ (List.replicate k x).flatten := by
  induction k with
  | zero => simp
  | succ k ih =>
    simp only [List.replicate_succ, List.flatten_cons, List.append_assoc]
    rw [ih]

lemma wrapMathPass_wrappedAlign (k : Nat) :
    wrapMathPass (wrappedAlign k) = wrappedAlign (k + 1) := by
  unfold wrappedAlign
  rw [List.append_assoc, wrapMathPass_openBrackets, wrapMathPass_alignCore,
    wrapMathPass_closeBrackets]
  rw [show (List.replicate (k + 1) ['\\', '[']).flatten
        = ['\\', '['] ++ (List.replicate k ['\\', '[']).flatten by
      simp [List.replicate_succ]]
  rw [show (List.replicate (k + 1) ['\\', ']']).flatten
        = ['\\', ']'] ++ (List.replicate k ['\\', ']']).flatten by
      simp [List.replicate_succ]]
  rw [show (List.replicate k ['\\', '[']).flatten ++
        (['\\', '['] ++ alignCore ++ ['\\', ']'] ++
          (List.replicate k ['\\', ']']).flatten)
      = ((List.replicate k ['\\', '[']).flatten ++ ['\\', '[']) ++ alignCore ++
          (['\\', ']'] ++ (List.replicate k ['\\', ']']).flatten) by
    simp [List.append_assoc]]
  rw [flatten_replicate_comm]

lemma flatten_replicate_length (k : Nat) (x : List Char) :
    ((List.replicate k x).flatten).length = k * x.length := by
  induction k with
  | zero => simp
  | succ k ih => simp [List.replicate_succ, ih]; ring

lemma wrappedAlign_ne_succ (k : Nat) : wrappedAlign (k + 1) ≠ wrappedAlign k := by
  intro h
  have hlen := congrArg List.length h
  simp [wrappedAlign, flatten_replicate_length, alignCore] at hlen
  omega

lemma wrap_loop_wrappedAlign (fuel : Nat) : ∀ (k : Nat),
    wrap_math_environments_in_brackets fuel (wrappedAlign k) = none := by
  induction fuel with
  | zero => intro k; rfl
  | succ fuel ih =>
    intro k
    rw [wrap_math_environments_in_brackets, wrapMathPass_wrappedAlign,
      if_neg (wrappedAlign_ne_succ k)]
    exact ih (k + 1)

/-- C1: FALSIFIED — the fixed-point substitution loop of
`wrap_math_environments_in_brackets` never terminates on any input that
contains a complete recognized math-block environment: each pass wraps the
environment in one more display-bracket pair whether or not it is already so
enclosed, so `prev != cur` holds forever.  On `\begin{align}x\end{align}`
the loop diverges at every fuel bound. -/
theorem c1_wrap_fixed_point_loop_diverges (fuel : Nat) :
    wrap_math_environments_in_brackets fuel alignCore = none := by
  have h0 : alignCore = wrappedAlign 0 := by simp [wrappedAlign]
  rw [h0]
  exact wrap_loop_wrappedAlign fuel 0

/-! Theorems for C2 (malformation policy of the structurer). -/

/-- C2: FALSIFIED — on a document whose second problem environment is opened
but never closed, `parse_sections_and_problems` does not truncate and keep
the already-collected first block: the `ValueError` raised inside
`find_matching_env` propagates uncaught (the `if not end_tag: break`
truncation branch is unreachable), so structuring raises instead of
degrading gracefully. -/
theorem c2_structuring_raises_on_unclosed_problem :
    parse_sections_and_problems
        ("\\begin\x7bproblem\x7da\\end\x7bproblem\x7d\\begin\x7bproblem\x7db".toList) =
      .error "end not found for env problem" := by rfl

/-! Theorems for C5 (problem numbering and identifiers). -/

lemma problemCardTitles_get? (sid : List Char) (blocks : List (String × List Char)) :
    ∀ (c k : Nat),
    (problemCardTitles sid c blocks).get? k =
      ((blocks.filter isProblemBlock).get? k).map
        (fun b => mkCardTitle sid (c + k + 1) b.1) := by
  induction blocks with
  | nil => intro c k; simp [problemCardTitles]
  | cons b rest ih =>
    intro c k
    obtain ⟨kind, payload⟩ := b
    by_cases hs : kind = "section"
    · subst hs
      rw [problemCardTitles, if_pos rfl, ih c k]
      simp [List.filter, isProblemBlock]
    · by_cases hp : kind = "problem" ∨ kind = "problem*"
      · rw [problemCardTitles]
        rw [if_neg hs, if_pos hp]
        have hf : isProblemBlock (kind, payload) = true := by
          rcases hp with h | h <;> simp [isProblemBlock, h]
        rw [show (((kind, payload) :: rest).filter isProblemBlock)
              = (kind, payload) :: rest.filter isProblemBlock by
            simp [List.filter, hf]]
        cases k with
        | zero => simp
        | succ k =>
          simp only [List.get?_cons_succ]
          rw [ih (c + 1) k]
          have harith : c + 1 + k + 1 = c + (k + 1) + 1 := by omega
          rw [harith]
      · rw [problemCardTitles, if_neg hs, if_neg hp, ih c k]
        have hf : isProblemBlock (kind, payload) = false := by
          have h1 : kind ≠ "problem" := fun h => hp (Or.inl h)
          have h2 : kind ≠ "problem*" := fun h => hp (Or.inr h)
          simp [isProblemBlock, h1, h2]
        simp [List.filter, hf]

/-- C5: the k-th problem block (problems and starred problems only, in
order; sections never consume a slot) is rendered with card title
`S<set>P<idx>` where `idx` is `k+1` zero-padded to width 2 and `set` is the
first digit run of the file's extension-stripped base name (default 1)
zero-padded to width 2, a starred problem additionally carrying the star
marker; concretely, a problem and a starred problem in `hw3.tex` with a
section between them get `S03P01` and `S03P02 ★`. -/
theorem c5_problem_numbering :
    (∀ (path : List Char) (blocks : List (String × List Char)) (k : Nat),
      (problemCardTitles (pad2 (first_digits_from_filename path)) 0 blocks).get? k =
        ((blocks.filter isProblemBlock).get? k).map
          (fun b => mkCardTitle (pad2 (first_digits_from_filename path)) (k + 1) b.1)) ∧
    problemCardTitles (pad2 (first_digits_from_filename ("hw3.tex".toList))) 0
        [("problem", []), ("section", "T".toList), ("problem*", [])] =
      ["S03P01".toList, "S03P02 ★".toList] := by
  constructor
  · intro path blocks k
    simpa using problemCardTitles_get? (pad2 (first_digits_from_filename path)) blocks 0 k
  · rfl

/-! Theorems for C6 (macro-extractor behaviour). -/

lemma newcommandScan_eq_spec (d : Nat) (so : Bool) (l : List Char) :
    (so = true → 0 < d) → newcommandScan d so l = newcommandScanSpec d so l := by
  induction d, so, l using newcommandScan.induct with
  | case1 d so => intro _; rfl
  | case2 d so c => intro _; rfl
  | case3 d so c2 rest ih =>
    intro hinv
    simp +decide [newcommandScan, newcommandScanSpec, ih hinv]
  | case4 d so c1 c2 rest hb hstop =>
    intro hinv
    have hsov := hstop.1
    have hdv := hstop.2
    by_cases hob : c1 = '\x7b'
    · rw [if_pos hob] at hdv
      simp at hdv
    · by_cases hcb : c1 = '\x7d'
      · subst hcb
        have hso : so = true := by simpa [hob] using hsov
        subst hso
        rw [if_neg hob, if_pos rfl] at hdv
        have hd1 : d ≤ 1 := by omega
        simp +decide [newcommandScan, newcommandScanSpec, hdv, hd1]
      · exfalso
        rw [if_neg hob, if_neg hcb] at hdv
        have hso : so = true := by simpa [hob] using hsov
        have := hinv hso
        omega
  | case5 d so c1 c2 rest hb hstop hnl =>
    intro hinv
    have hsov := hnl.1
    have hc1 : c1 = '\n' := hnl.2
    subst hc1
    cases so with
    | false => simp +decide [newcommandScan, newcommandScanSpec]
    | true => exact absurd (by simp) hsov
  | case6 d so c1 c2 rest hb hstop hnl ih =>
    intro hinv
    by_cases hob : c1 = '\x7b'
    · subst hob
      have heq := ih (by
        intro _
        simp +decide <;> omega)
      simp +decide at heq
      simp +decide [newcommandScan, newcommandScanSpec, heq]
    · by_cases hcb : c1 = '\x7d'
      · subst hcb
        cases so with
        | false =>
          have heq := ih (by
            intro h
            simp +decide at h)
          simp +decide at heq
          simp +decide [newcommandScan, newcommandScanSpec, heq]
        | true =>
          have hd1 : ¬(d - 1 = 0) := by
            intro hz
            apply hstop
            constructor
            · simp
            · simp +decide <;> omega
          have hd2 : ¬(d ≤ 1) := by omega
          have heq := ih (by
            intro _
            simp +decide <;> omega)
          simp +decide at heq
          simp +decide [newcommandScan, newcommandScanSpec, heq, hd1, hd2]
      · by_cases hnlc : c1 = '\n'
        · subst hnlc
          cases so with
          | false =>
            exfalso
            apply hnl
            simp
          | true =>
            have hd0 : ¬(d = 0) := by
              have := hinv rfl
              omega
            have heq := ih (by
              intro _
              simp +decide
              exact hinv rfl)
            simp +decide at heq
            simp +decide [newcommandScan, newcommandScanSpec, heq, hd0]
        · have hsov' : (so || decide (c1 = '\x7b')) = so := by simp [hob]
          have hdv' : (if c1 = '\x7b' then d + 1 else if c1 = '\x7d' then d - 1 else d)
              = d := by simp [hob, hcb]
          have hnostop : ¬(so = true ∧ d = 0) := by
            intro hx
            have := hinv hx.1
            omega
          have heq := ih (by
            rw [hsov', hdv']
            exact hinv)
          rw [hsov', hdv'] at heq
          simp only [newcommandScan, newcommandScanSpec, if_neg hb, if_neg hob,
            if_neg hcb, if_neg hnlc, hsov', hdv']
          rw [if_neg hnostop]
          rw [if_neg (by
            intro hx
            exact hnlc hx.2)]
          rw [heq]

/-- C6: the macro extractor behaves exactly as the claim describes — for
every input, `extract_newcommand_blocks` (translated from the code) and
`extractSpecC6` (driven by the claim's scan rule: skip escaped pairs, stop
the first time depth returns to zero after a brace was opened, or at the
next line break when none was, returning the trimmed constructs in
discovery order with the surrounding text kept) produce the same removed
constructs and the same residual text. -/
theorem c6_extract_newcommand_blocks_correct (l : List Char) :
    extract_newcommand_blocks l = extractSpecC6 l := by
  induction l using extract_newcommand_blocks.induct with
  | case1 l hfind =>
    unfold extract_newcommand_blocks extractSpecC6
    rw [hfind]
  | case2 l pre suf hfind rest ih =>
    have hscan : newcommandScan 0 false suf = newcommandScanSpec 0 false suf :=
      newcommandScan_eq_spec 0 false suf (by intro h; simp at h)
    have ih2 : extract_newcommand_blocks ((newcommandScanSpec 0 false suf).2) =
        extractSpecC6 ((newcommandScanSpec 0 false suf).2) := by
      rw [← hscan]
      exact ih
    unfold extract_newcommand_blocks extractSpecC6
    rw [hfind]
    simp only [hscan]
    rw [ih2]

/-! Theorems for C9 (assignment-URL parsing). -/

lemma firstIdx_spec {α : Type} [DecidableEq α] (a : α) : ∀ (l : List α),
    (∃ i c, firstIdx a l = some i ∧ l.get? (i + 1) = some c) ↔
    (∃ j, l.get? j = some a ∧ j + 1 < l.length) := by
  intro l
  induction l with
  | nil => simp [firstIdx]
  | cons b rest ih =>
    by_cases hb : b = a
    · subst hb
      simp only [firstIdx, if_pos rfl]
      constructor
      · rintro ⟨i, c, hi, hc⟩
        simp at hi
        subst hi
        refine ⟨0, by simp, ?_⟩
        simp only [List.get?_cons_succ] at hc
        obtain ⟨hlt, _⟩ := List.get?_eq_some.mp hc
        simp only [List.length_cons]
        omega
      · rintro ⟨j, hj, hlen⟩
        simp only [List.length_cons] at hlen
        have h0 : 0 < rest.length := by omega
        obtain ⟨c, hc⟩ : ∃ c, rest.get? 0 = some c := by
          cases hx : rest.get? 0 with
          | none =>
            rw [List.get?_eq_none] at hx
            omega
          | some c => exact ⟨c, rfl⟩
        exact ⟨0, c, rfl, by simpa using hc⟩
    · simp only [firstIdx, if_neg hb]
      constructor
      · rintro ⟨i, c, hi, hc⟩
        simp only [Option.map_eq_some'] at hi
        obtain ⟨i', hi', hadd⟩ := hi
        subst hadd
        simp only [List.get?_cons_succ] at hc
        obtain ⟨j, hj, hlen⟩ := (ih).mp ⟨i', c, hi', hc⟩
        refine ⟨j + 1, by simpa using hj, ?_⟩
        simp only [List.length_cons]
        omega
      · rintro ⟨j, hj, hlen⟩
        cases j with
        | zero =>
          simp at hj
          exact absurd hj hb
        | succ j =>
          simp only [List.get?_cons_succ] at hj
          simp only [List.length_cons] at hlen
          obtain ⟨i', c, hi', hc⟩ := (ih).mpr ⟨j, hj, by omega⟩
          exact ⟨i' + 1, c, by simp [hi'], by simpa using hc⟩

/-- C9: `parse_assignment_url` succeeds exactly when the URL parses with a
non-empty scheme and host and its path contains the `courses` keyword
followed by a segment and the `assignments` keyword followed by a segment
(otherwise it raises), and on success it returns `scheme://netloc` and the
two segments following the first occurrence of each keyword in the path. -/
theorem c9_parse_assignment_url_correct (url : List Char) :
    ((∃ r, parse_assignment_url url = .ok r) ↔
      (∃ u, urlparseM url = .ok u ∧ u.scheme ≠ [] ∧ u.netloc ≠ [] ∧
        (∃ i, (urlPathParts u).get? i = some ("courses".toList) ∧
          i + 1 < (urlPathParts u).length) ∧
        (∃ j, (urlPathParts u).get? j = some ("assignments".toList) ∧
          j + 1 < (urlPathParts u).length))) ∧
    (∀ b c a, parse_assignment_url url = .ok (b, c, a) →
      ∃ u, urlparseM url = .ok u ∧
        b = u.scheme ++ "://".toList ++ u.netloc ∧
        (∃ i, firstIdx ("courses".toList) (urlPathParts u) = some i ∧
          (urlPathParts u).get? (i + 1) = some c) ∧
        (∃ j, firstIdx ("assignments".toList) (urlPathParts u) = some j ∧
          (urlPathParts u).get? (j + 1) = some a)) := by
  unfold parse_assignment_url
  cases hu : urlparseM url with
  | error e =>
    constructor
    · constructor
      · rintro ⟨r, hr⟩
        simp at hr
      · rintro ⟨u', hu', _⟩
        simp at hu'
    · intro b c a h
      simp at h
  | ok u =>
    dsimp only
    by_cases hvalid : u.scheme = [] ∨ u.netloc = []
    · rw [if_pos hvalid]
      constructor
      · constructor
        · rintro ⟨r, hr⟩
          simp at hr
        · rintro ⟨u', hu', h1, h2, _⟩
          simp at hu'
          subst hu'
          rcases hvalid with h | h
          · exact (h1 h).elim
          · exact (h2 h).elim
      · intro b c a h
        simp at h
    · rw [if_neg hvalid]
      push_neg at hvalid
      obtain ⟨hs, hn⟩ := hvalid
      cases hc : firstIdx ("courses".toList) (urlPathParts u) with
      | none =>
        constructor
        · constructor
          · rintro ⟨r, hr⟩
            simp at hr
          · rintro ⟨u', hu', _, _, hcourses, _⟩
            simp at hu'
            subst hu'
            obtain ⟨i, cx, hfi, _⟩ := (firstIdx_spec _ _).mpr hcourses
            rw [hc] at hfi
            simp at hfi
        · intro b c a h
          simp at h
      | some i =>
        cases hgc : (urlPathParts u)[i + 1]? with
        | none =>
          constructor
          · constructor
            · rintro ⟨r, hr⟩
              simp [hgc] at hr
            · rintro ⟨u', hu', _, _, hcourses, _⟩
              simp at hu'
              subst hu'
              obtain ⟨i', cx, hfi, hgx⟩ := (firstIdx_spec _ _).mpr hcourses
              rw [hc] at hfi
              simp at hfi
              subst hfi
              rw [List.get?_eq_getElem?, hgc] at hgx
              simp at hgx
          · intro b c a h
            simp [hgc] at h
        | some cid =>
          cases ha : firstIdx ("assignments".toList) (urlPathParts u) with
          | none =>
            constructor
            · constructor
              · rintro ⟨r, hr⟩
                simp [hgc, ha] at hr
              · rintro ⟨u', hu', _, _, _, hassign⟩
                simp at hu'
                subst hu'
                obtain ⟨j, ax, hfj, _⟩ := (firstIdx_spec _ _).mpr hassign
                rw [ha] at hfj
                simp at hfj
            · intro b c a h
              simp [hgc, ha] at h
          | some j =>
            cases hga : (urlPathParts u)[j + 1]? with
            | none =>
              constructor
              · constructor
                · rintro ⟨r, hr⟩
                  simp [hgc, ha, hga] at hr
                · rintro ⟨u', hu', _, _, _, hassign⟩
                  simp at hu'
                  subst hu'
                  obtain ⟨j', ax, hfj, hgx⟩ := (firstIdx_spec _ _).mpr hassign
                  rw [ha] at hfj
                  simp at hfj
                  subst hfj
                  rw [List.get?_eq_getElem?, hga] at hgx
                  simp at hgx
              · intro b c a h
                simp [hgc, ha, hga] at h
            | some aid =>
              have hgc' : (urlPathParts u).get? (i + 1) = some cid := by
                rw [List.get?_eq_getElem?, hgc]
              have hga' : (urlPathParts u).get? (j + 1) = some aid := by
                rw [List.get?_eq_getElem?, hga]
              constructor
              · constructor
                · intro _
                  refine ⟨u, rfl, hs, hn, ?_, ?_⟩
                  · exact (firstIdx_spec _ _).mp ⟨i, cid, hc, hgc'⟩
                  · exact (firstIdx_spec _ _).mp ⟨j, aid, ha, hga'⟩
                · intro _
                  refine ⟨(u.scheme ++ "://".toList ++ u.netloc, cid, aid), ?_⟩
                  simp [hgc, hga]
              · intro b c a h
                simp [hgc, hga] at h
                obtain ⟨hb, hcc, haa⟩ := h
                refine ⟨u, rfl, ?_, ⟨i, hc, ?_⟩, ⟨j, ha, ?_⟩⟩
                · rw [← hb]
                  simp
                · rw [hgc', hcc]
                · rw [hga', haa]

/-- Witness for C9: on the concrete URL `https://h/courses/3/assignments/5`,
`parse_assignment_url` succeeds with base `https://h` and ids `3`, `5`, and the
success-value characterization of `c9_parse_assignment_url_correct` is
discharged at that input. -/
theorem c9_parse_assignment_url_witness :
    parse_assignment_url ("https://h/courses/3/assignments/5".toList)
      = .ok ("https://h".toList, "3".toList, "5".toList) ∧
    (∃ u, urlparseM ("https://h/courses/3/assignments/5".toList) = .ok u ∧
      "https://h".toList = u.scheme ++ "://".toList ++ u.netloc ∧
      (∃ i, firstIdx ("courses".toList) (urlPathParts u) = some i ∧
        (urlPathParts u).get? (i + 1) = some ("3".toList)) ∧
      (∃ j, firstIdx ("assignments".toList) (urlPathParts u) = some j ∧
        (urlPathParts u).get? (j + 1) = some ("5".toList))) :=
  ⟨by rfl, (c9_parse_assignment_url_correct _).2 _ _ _ (by rfl)⟩

/-! Theorems for C7 (inclusion-resolution error handling). -/

lemma inputMatchAt_cons_ne (c : Char) (hc : c ≠ '\\') (l : List Char) :
    inputMatchAt (c :: l) = none := by
  simp [inputMatchAt, inputKeyword, prefixAt, eq_comm, hc]

lemma findInputMatch_none_of_backslashFree :
    ∀ (l : List Char), backslashFree l = true → findInputMatch l = none := by
  intro l hl
  induction l with
  | nil => rfl
  | cons c rest ih =>
    simp only [backslashFree, List.all_cons, Bool.and_eq_true] at hl
    have hc : c ≠ '\\' := by simpa using hl.1
    rw [findInputMatch, inputMatchAt_cons_ne c hc]
    rw [ih (by simpa [backslashFree] using hl.2)]

lemma findInputMatch_append_left (t : List Char) (ht : backslashFree t = true)
    (r : List Char) :
    findInputMatch (t ++ r) = (findInputMatch r).map (fun p => (t ++ p.1, p.2)) := by
  induction t with
  | nil =>
    simp only [List.nil_append]
    cases findInputMatch r with
    | none => rfl
    | some p => simp
  | cons c t ih =>
    simp only [backslashFree, List.all_cons, Bool.and_eq_true] at ht
    have hc : c ≠ '\\' := by simpa using ht.1
    rw [List.cons_append, findInputMatch, inputMatchAt_cons_ne c hc]
    rw [ih (by simpa [backslashFree] using ht.2)]
    cases findInputMatch r with
    | none => rfl
    | some p => simp

lemma inputSubPass_prepend (fs : List Char → Option (List Char))
    (rp : List Char → List Char → List Char) (dn : List Char → List Char)
    (base_dir : List Char) (t : List Char) (ht : backslashFree t = true) :
    ∀ (fuel : Nat) (R : List Char) (seen : List (List Char)),
      inputSubPass fs rp dn fuel (t ++ R) base_dir seen =
        (inputSubPass fs rp dn fuel R base_dir seen).map
          (fun p => (t ++ p.1, p.2)) := by
  intro fuel R seen
  cases fuel with
  | zero => rfl
  | succ f =>
    rw [inputSubPass, inputSubPass, findInputMatch_append_left t ht R]
    cases hr : findInputMatch R with
    | none => rfl
    | some p =>
      obtain ⟨pre, fname0, after⟩ := p
      dsimp only [Option.map]
      by_cases h1 : (pyStrip fname0).isEmpty = true
      · rw [if_pos h1, if_pos h1]
        cases inputSubPass fs rp dn f after base_dir seen with
        | none => rfl
        | some q => simp
      · rw [if_neg h1, if_neg h1]
        by_cases h2 : seen.contains (rp base_dir
            (if hasSplitextExt (pyStrip fname0) = true then pyStrip fname0
             else pyStrip fname0 ++ ".tex".toList)) = true
        · rw [if_pos h2, if_pos h2]
          cases inputSubPass fs rp dn f after base_dir seen with
          | none => rfl
          | some q => simp
        · rw [if_neg h2, if_neg h2]
          cases fs (rp base_dir
              (if hasSplitextExt (pyStrip fname0) = true then pyStrip fname0
               else pyStrip fname0 ++ ".tex".toList)) with
          | none =>
            cases inputSubPass fs rp dn f after base_dir seen with
            | none => rfl
            | some q => simp
          | some raw =>
            dsimp only
            cases resolveInputsLoop fs rp dn f (strip_comments raw)
                (dn (rp base_dir
                  (if hasSplitextExt (pyStrip fname0) = true then pyStrip fname0
                   else pyStrip fname0 ++ ".tex".toList)))
                (rp base_dir
                  (if hasSplitextExt (pyStrip fname0) = true then pyStrip fname0
                   else pyStrip fname0 ++ ".tex".toList) :: seen) with
            | none => rfl
            | some q =>
              obtain ⟨content, seen1⟩ := q
              dsimp only
              cases inputSubPass fs rp dn f after base_dir seen1 with
              | none => rfl
              | some q2 => simp

lemma backslashFree_append (a b : List Char) :
    backslashFree (a ++ b) = (backslashFree a && backslashFree b) := by
  simp [backslashFree]

lemma backslashFree_inputFname2 (f : List Char)
    (h : backslashFree (pyStrip f) = true) :
    backslashFree (inputFname2 f) = true := by
  unfold inputFname2
  split
  · exact h
  · rw [backslashFree_append, h]
    decide

lemma backslashFree_missingInputMarker (f : List Char)
    (h : backslashFree f = true) :
    backslashFree (missingInputMarker f) = true := by
  simp only [backslashFree] at h
  simp +decide [missingInputMarker, backslashFree, List.all_append, List.all_cons, h]

lemma backslashFree_skipInputMarker (f : List Char)
    (h : backslashFree f = true) :
    backslashFree (skipInputMarker f) = true := by
  simp only [backslashFree] at h
  simp +decide [skipInputMarker, backslashFree, List.all_append, List.all_cons, h]

lemma renderResolved_backslashFree (fs : List Char → Option (List Char))
    (rp : List Char → List Char → List Char)
    (base_dir : List Char) (seen : List (List Char)) :
    ∀ (items : List DocItem), goodDoc fs rp base_dir seen items = true →
      backslashFree (renderResolved rp base_dir seen items) = true := by
  intro items
  induction items with
  | nil => intro _; rfl
  | cons item rest ih =>
    cases item with
    | text t =>
      intro hg
      simp only [goodDoc, Bool.and_eq_true] at hg
      rw [renderResolved, backslashFree_append, hg.1, ih hg.2]
      rfl
    | directive d fname =>
      intro hg
      simp only [goodDoc, Bool.and_eq_true] at hg
      obtain ⟨⟨⟨⟨hm, hne⟩, hbf⟩, hcase⟩, hrest⟩ := hg
      rw [renderResolved, backslashFree_append, ih hrest]
      have hf2 : backslashFree (inputFname2 fname) = true :=
        backslashFree_inputFname2 fname hbf
      split
      · rw [backslashFree_skipInputMarker _ hf2]; rfl
      · rw [backslashFree_missingInputMarker _ hf2]; rfl

lemma inputSubPass_goodDoc (fs : List Char → Option (List Char))
    (rp : List Char → List Char → List Char) (dn : List Char → List Char)
    (base_dir : List Char) (seen : List (List Char)) :
    ∀ (items : List DocItem), goodDoc fs rp base_dir seen items = true →
      ∀ (fuel : Nat), countDirectives items < fuel →
        inputSubPass fs rp dn fuel (renderDoc items) base_dir seen =
          some (renderResolved rp base_dir seen items, seen) := by
  intro items
  induction items with
  | nil =>
    intro _ fuel hf
    obtain ⟨f, rfl⟩ : ∃ f, fuel = f + 1 := ⟨fuel - 1, by omega⟩
    rw [inputSubPass]
    rfl
  | cons item rest ih =>
    cases item with
    | text t =>
      intro hg fuel hf
      simp only [goodDoc, Bool.and_eq_true] at hg
      have hcount : countDirectives rest < fuel := by
        simpa [countDirectives] using hf
      rw [renderDoc, renderResolved,
        inputSubPass_prepend fs rp dn base_dir t hg.1 fuel (renderDoc rest) seen,
        ih hg.2 fuel hcount]
      rfl
    | directive d fname =>
      intro hg fuel hf
      simp only [goodDoc, Bool.and_eq_true] at hg
      obtain ⟨⟨⟨⟨hm, hne⟩, hbf⟩, hcase⟩, hrest⟩ := hg
      rw [beq_iff_eq] at hm
      obtain ⟨f, rfl⟩ : ∃ f, fuel = f + 1 := ⟨fuel - 1, by omega⟩
      have hcount : countDirectives rest < f := by
        simp only [countDirectives] at hf; omega
      have hfm : findInputMatch (d ++ renderDoc rest) =
          some ([], fname, renderDoc rest) := by
        cases hd : d ++ renderDoc rest with
        | nil => rw [hd] at hm; simp [inputMatchAt] at hm
        | cons c l =>
          rw [hd] at hm
          rw [findInputMatch, hm]
      rw [renderDoc, inputSubPass, hfm]
      dsimp only
      rw [if_neg (by simpa using hne)]
      rw [show (if hasSplitextExt (pyStrip fname) = true then pyStrip fname
            else pyStrip fname ++ ".tex".toList) = inputFname2 fname from rfl]
      rw [renderResolved]
      by_cases hseen : seen.contains (rp base_dir (inputFname2 fname)) = true
      · rw [if_pos hseen, if_pos hseen, ih hrest f hcount]
        simp
      · rw [if_neg hseen, if_neg hseen]
        have hfs : fs (rp base_dir (inputFname2 fname)) = none := by
          rcases Bool.or_eq_true_iff.mp hcase with h | h
          · exact absurd h hseen
          · exact Option.isNone_iff_eq_none.mp h
        rw [hfs, ih hrest f hcount]
        simp

/-- C7: for every filesystem `fs`, path resolver, base directory and `seen`
set, and every document made of backslash-free text chunks interleaved with
arbitrarily many inclusion directives (braced or bare form; `goodDoc` says
each directive matches `INPUT_RE` in context capturing its nonempty,
backslash-free file name, and each resolved target is already visited or
absent from the filesystem), `resolve_inputs` succeeds without raising at
every sufficient fuel: every directive is replaced by its comment marker
(skip when visited, missing otherwise), every text chunk is preserved, and
`seen` is unchanged.  Moreover each marker contains its `fname2` and
`fname2` contains the stripped captured name, so the marker mentions the
target file name. -/
theorem c7_input_resolution_markers :
    (∀ (fs : List Char → Option (List Char))
        (resolvePath : List Char → List Char → List Char)
        (dirname : List Char → List Char)
        (base_dir : List Char) (seen : List (List Char))
        (items : List DocItem) (fuel : Nat),
        goodDoc fs resolvePath base_dir seen items = true →
        countDirectives items + 3 ≤ fuel →
        resolve_inputs fs resolvePath dirname fuel (renderDoc items) base_dir seen =
          some (renderResolved resolvePath base_dir seen items, seen)) ∧
    (∀ fname2 : List Char,
        fname2.IsInfix (missingInputMarker fname2) ∧
        fname2.IsInfix (skipInputMarker fname2)) ∧
    (∀ fname : List Char, (pyStrip fname).IsInfix (inputFname2 fname)) := by
  refine ⟨?_, ?_, ?_⟩
  · intro fs rp dn base_dir seen items fuel hg hf
    obtain ⟨f, rfl⟩ : ∃ f, fuel = f + 2 := ⟨fuel - 2, by omega⟩
    have hO : backslashFree (renderResolved rp base_dir seen items) = true :=
      renderResolved_backslashFree fs rp base_dir seen items hg
    have hpass1 : inputSubPass fs rp dn (f + 1) (renderDoc items) base_dir seen =
        some (renderResolved rp base_dir seen items, seen) :=
      inputSubPass_goodDoc fs rp dn base_dir seen items hg (f + 1) (by omega)
    unfold resolve_inputs
    rw [show f + 2 = (f + 1) + 1 from rfl, resolveInputsLoop, hpass1]
    dsimp only
    by_cases heq : renderResolved rp base_dir seen items = renderDoc items
    · rw [if_pos heq]
    · rw [if_neg heq]
      obtain ⟨f2, rfl⟩ : ∃ f2, f = f2 + 1 := ⟨f - 1, by omega⟩
      rw [show f2 + 1 + 1 = (f2 + 1) + 1 from rfl, resolveInputsLoop]
      rw [inputSubPass, findInputMatch_none_of_backslashFree _ hO]
      dsimp only
      rw [if_pos rfl]
  · intro f
    constructor
    · exact ⟨'\n' :: ("% (missing input file: ".toList), [')', '\n'], by
        simp [missingInputMarker]⟩
    · exact ⟨'\n' :: ("% (skipping recursive input: ".toList), [')', '\n'], by
        simp [skipInputMarker]⟩
  · intro fname
    unfold inputFname2
    split
    · exact ⟨[], [], by simp⟩
    · exact ⟨[], ".tex".toList, by simp⟩

/-- Witness for C7: the empty filesystem, the identity path resolver, base
directory `[]` and `seen` holding exactly `bar.tex` make the document
`A \input\x7bfoo.tex\x7d B \input bar C` (one braced directive with a missing
target, one bare directive whose name gets the `.tex` default and is
already visited) a `goodDoc`, and the theorem's resolution equation holds
at fuel 5. -/
theorem c7_input_resolution_markers_witness :
    goodDoc (fun _ => none) (fun _ f => f) [] [("bar.tex".toList)]
      [DocItem.text ("A ".toList),
       DocItem.directive ("\\input\x7bfoo.tex\x7d".toList) ("foo.tex".toList),
       DocItem.text (" B ".toList),
       DocItem.directive ("\\input bar".toList) ("bar".toList),
       DocItem.text (" C".toList)] = true ∧
    countDirectives
      [DocItem.text ("A ".toList),
       DocItem.directive ("\\input\x7bfoo.tex\x7d".toList) ("foo.tex".toList),
       DocItem.text (" B ".toList),
       DocItem.directive ("\\input bar".toList) ("bar".toList),
       DocItem.text (" C".toList)] + 3 ≤ 5 ∧
    resolve_inputs (fun _ => none) (fun _ f => f) (fun _ => []) 5
      (renderDoc
        [DocItem.text ("A ".toList),
         DocItem.directive ("\\input\x7bfoo.tex\x7d".toList) ("foo.tex".toList),
         DocItem.text (" B ".toList),
         DocItem.directive ("\\input bar".toList) ("bar".toList),
         DocItem.text (" C".toList)]) [] [("bar.tex".toList)] =
      some (renderResolved (fun _ f => f) [] [("bar.tex".toList)]
        [DocItem.text ("A ".toList),
         DocItem.directive ("\\input\x7bfoo.tex\x7d".toList) ("foo.tex".toList),
         DocItem.text (" B ".toList),
         DocItem.directive ("\\input bar".toList) ("bar".toList),
         DocItem.text (" C".toList)], [("bar.tex".toList)]) :=
  ⟨by decide, by decide,
    c7_input_resolution_markers.1 (fun _ => none) (fun _ f => f) (fun _ => [])
      [] [("bar.tex".toList)]
      [DocItem.text ("A ".toList),
       DocItem.directive ("\\input\x7bfoo.tex\x7d".toList) ("foo.tex".toList),
       DocItem.text (" B ".toList),
       DocItem.directive ("\\input bar".toList) ("bar".toList),
       DocItem.text (" C".toList)] 5 (by decide) (by decide)⟩

/-! Theorems for C8 (inline formatting of nested commands). -/

set_option maxHeartbeats 4000000 in
/-- C8: on `\textbf\x7bbold \emph\x7band italic\x7d\x7d` the inline formatting step
produces exactly `<strong>bold <em>and italic</em></strong>`; the
alternative processing order (resolving the outer `textbf` before the inner
`emph`) yields the same final string; and the HTML-escape pass followed by
the converter's tag-unescape fix-up maps the produced string to itself, so
the inserted tags survive escaping. -/
theorem c8_inline_formatting_nested :
    latex_to_html_inline 100 ("\\textbf\x7bbold \\emph\x7band italic\x7d\x7d".toList) =
      .ok ("<strong>bold <em>and italic</em></strong>".toList) ∧
    latex_to_html_inline_altOrder 100
        ("\\textbf\x7bbold \\emph\x7band italic\x7d\x7d".toList) =
      .ok ("<strong>bold <em>and italic</em></strong>".toList) ∧
    unescapeInsertedTags (html_escape_content
        ("<strong>bold <em>and italic</em></strong>".toList)) =
      "<strong>bold <em>and italic</em></strong>".toList :=
  ⟨rfl, rfl, rfl⟩
